import Mathlib

/-!
# kostola/anthropic-agent: a shallow embedding of the Go sources

The development embeds `main.go`, `tools/tools.go`, `tools/read_file.go` and
`tools/list_files.go`.  Go strings are lists of bytes, a Go `error` is an
`Option GoError` (`none` is `nil`), a function returning `(string, error)`
returns a pair.  The Go standard library and the two third-party libraries the
sources call (`encoding/json`, `path/filepath`, `os`, `bufio`, `jsonschema`,
the SDK parameter types) are modelled by their documented Unix behaviour.

Definitions come first, theorems afterwards.
-/

namespace AnthropicAgent

/-! ## Go strings and errors -/

/-- A Go `string`: its bytes, each a number below 256.  Nothing makes them
valid UTF-8; a file name is any sequence of bytes the file system accepts. -/
abbrev Str := List Nat

/-- Whether a number is a Unicode scalar value: a code point that is not half
of a surrogate pair. -/
def isScalar (r : Nat) : Bool :=
  decide (r < 0xD800 ∨ (0xDFFF < r ∧ r < 0x110000))

/-- The UTF-8 encoding of a code point (`utf8.AppendRune`); what is no scalar
value is encoded as the replacement character U+FFFD. -/
def encodeRune (r : Nat) : Str :=
  if r < 0x80 then [r]
  else if r < 0x800 then [0xC0 + r / 64, 0x80 + r % 64]
  else if isScalar r = false then [0xEF, 0xBF, 0xBD]
  else if r < 0x10000 then [0xE0 + r / 4096, 0x80 + r / 64 % 64, 0x80 + r % 64]
  else [0xF0 + r / 262144, 0x80 + r / 4096 % 64, 0x80 + r / 64 % 64, 0x80 + r % 64]

/-- The bytes of a string literal: the UTF-8 encoding of its characters. -/
def bytes (s : String) : Str :=
  s.data.flatMap fun c => encodeRune c.toNat

/-- The Go `error` values the embedded code can produce.  `nil` is `none` of
`Option GoError`. -/
inductive GoError where
  /-- A `*json.SyntaxError`: the raw message is not well-formed JSON. -/
  | invalidJSON (msg : Str)
  /-- A `*json.UnmarshalTypeError`: a JSON value of kind `value` cannot be stored
  in a Go value of type `goType`; `struct` and `field` name the struct field
  being decoded, and are empty at the top level. -/
  | unmarshalType (value : Str) (goType : Str) (struct : Str) (field : Str)
  /-- A `*fs.PathError`: operation `op` failed on `path`. -/
  | pathError (op : Str) (path : Str) (msg : Str)
  /-- An `errors.New(msg)`. -/
  | plain (msg : Str)
  deriving DecidableEq, Repr

/-- The method `Error()` of a Go error. -/
def GoError.Error : GoError → Str
  | .invalidJSON msg => msg
  | .unmarshalType value goType struct field =>
      if struct ≠ [] ∨ field ≠ [] then
        (bytes "json: cannot unmarshal ") ++ value ++ (bytes " into Go struct field ") ++
          struct ++ (bytes ".") ++ field ++ (bytes " of type ") ++ goType
      else
        (bytes "json: cannot unmarshal ") ++ value ++ (bytes " into Go value of type ") ++ goType
  | .pathError op path msg => op ++ (bytes " ") ++ path ++ (bytes ": ") ++ msg
  | .plain msg => msg

/-! ## `encoding/json`: decoding into the input structs -/

/-- A well-formed JSON text, as the value it denotes.  Object members are kept
in source order, duplicates included. -/
inductive Json where
  | null
  | bool (b : Bool)
  | num (literal : Str)
  | str (s : Str)
  | arr (items : List Json)
  | obj (members : List (Str × Json))

/-- The bytes of a `json.RawMessage`: either they fail the decoder's syntax
check with the given error, or they are a well-formed JSON text. -/
inductive RawMessage where
  | invalid (err : GoError)
  | valid (v : Json)

/-- The word `encoding/json` uses for a JSON value in an
`UnmarshalTypeError`. -/
def Json.kind : Json → Str
  | .null => (bytes "null")
  | .bool _ => (bytes "bool")
  | .num _ => (bytes "number")
  | .str _ => (bytes "string")
  | .arr _ => (bytes "array")
  | .obj _ => (bytes "object")

/-- Go's `foldName` on an object key: ASCII letters go to upper case, and the
long s (bytes C5 BF) and the Kelvin sign (bytes E2 84 AA), the two other runes
that fold to an ASCII letter, go to `S` and `K`.  Other bytes are kept: the
runes they encode fold to runes outside ASCII. -/
def foldName : Str → Str
  | [] => []
  | 0xC5 :: 0xBF :: rest => 0x53 :: foldName rest
  | 0xE2 :: 0x84 :: 0xAA :: rest => 0x4B :: foldName rest
  | b :: rest => (if 97 ≤ b ∧ b ≤ 122 then b - 32 else b) :: foldName rest

/-- Whether an object key selects the struct field whose JSON name is
`jsonName`: an exact match, or else a match of the folded names. -/
def keyMatches (jsonName key : Str) : Bool :=
  decide (key = jsonName) || decide (foldName key = foldName jsonName)

/-- Storing one JSON value into the Go `string` field `field` of the struct
`struct` (`literalStore`): a JSON string is stored, `null` leaves the field
alone, anything else is an `UnmarshalTypeError`. -/
def storeString (struct field : Str) (cur : Str) (v : Json) : Str × Option GoError :=
  match v with
  | .str s => (s, none)
  | .null => (cur, none)
  | other => (cur, some (.unmarshalType other.kind (bytes "string") struct field))

/-- The first error wins (`decodeState.saveError`). -/
def saveError (saved : Option GoError) (err : Option GoError) : Option GoError :=
  match saved with
  | some e => some e
  | none => err

/-- Decoding the members of a JSON object into the struct `struct` with one
`string` field named `jsonName` (`decodeState.object`): matching members are
stored in order, the others are skipped, decoding goes on after a type
error. -/
def decodeMembers (struct jsonName : Str) :
    List (Str × Json) → Str → Option GoError → Str × Option GoError
  | [], cur, saved => (cur, saved)
  | (key, v) :: rest, cur, saved =>
      if keyMatches jsonName key then
        let r := storeString struct jsonName cur v
        decodeMembers struct jsonName rest r.1 (saveError saved r.2)
      else
        decodeMembers struct jsonName rest cur saved

/-- The function `json.Unmarshal(input, &s)` for a struct `s` of type `struct`
(`goType` with its package) whose only field is a `string` tagged `jsonName`,
starting from the zero value `cur`.  Returns the field afterwards and the
error. -/
def unmarshalStringStruct (struct jsonName : Str) (goType : Str) (input : RawMessage)
    (cur : Str) : Str × Option GoError :=
  match input with
  | .invalid err => (cur, some err)
  | .valid (.obj members) => decodeMembers struct jsonName members cur none
  | .valid .null => (cur, none)
  | .valid other => (cur, some (.unmarshalType other.kind goType [] []))

/-! ## The file system -/

/-- What `os.Lstat` and `os.ReadDir` see below a path.  A directory holds its
entries in the order `readDirNames` returns them (sorted by name); `readErr`
is the error of reading the directory, if any.  A symbolic link is an entry of
its own, whatever it points to: `Lstat` does not follow it.  An `unstatable`
entry is a name whose `Lstat` fails. -/
inductive Node where
  | file : Node
  | symlink (target : Str) : Node
  | dir (readErr : Option GoError) (entries : List (Str × Node)) : Node
  | unstatable (err : GoError) : Node

instance : Inhabited Node := ⟨Node.file⟩

/-- A file system state, as far as the tools observe it: `readFile` is
`os.ReadFile`, `lstat` is `os.Lstat` of a walk root together with the tree
found there. -/
structure FileSystem where
  readFile : Str → Except GoError Str
  lstat : Str → Except GoError Node

/-! ## `tools/tools.go` -/

/-- A Go struct field as the schema reflector sees it. -/
structure StructField where
  goName : Str
  jsonName : Str
  omitEmpty : Bool
  goType : Str
  description : Str
  deriving DecidableEq, Repr

/-- A Go struct type: its fields in declaration order. -/
abbrev StructType := List StructField

/-- The schema of one property. -/
structure PropertySchema where
  type : Str
  description : Str
  deriving DecidableEq, Repr

/-- The part of `jsonschema.Schema` the reflector fills for a struct.
`additionalProperties = some false` is `FalseSchema`, `none` is unset. -/
structure Schema where
  type : Str
  properties : List (Str × PropertySchema)
  additionalProperties : Option Bool
  required : List Str
  deriving DecidableEq, Repr

/-- The options of `jsonschema.Reflector` set by the source. -/
structure Reflector where
  AllowAdditionalProperties : Bool
  DoNotReference : Bool
  deriving DecidableEq, Repr

/-- The JSON-schema type name the reflector gives a Go type, by the name of the
Go type: strings, booleans, the integer and floating-point types, slices and
arrays; a struct or map is an object. -/
def schemaTypeOf (goType : Str) : Str :=
  if goType = bytes "string" then bytes "string"
  else if goType = bytes "bool" then bytes "boolean"
  else if goType ∈ [bytes "int", bytes "int8", bytes "int16", bytes "int32", bytes "int64",
      bytes "uint", bytes "uint8", bytes "uint16", bytes "uint32", bytes "uint64"] then
    bytes "integer"
  else if goType = bytes "float32" ∨ goType = bytes "float64" then bytes "number"
  else if goType.head? = some 91 then bytes "array"
  else bytes "object"

/-- The method `Reflector.Reflect` on a value of struct type `t`: an object
schema with one property per field, the fields without `omitempty` required,
and additional properties forbidden unless the reflector allows them. -/
def Reflector.Reflect (r : Reflector) (t : StructType) : Schema :=
  { type := (bytes "object")
    properties := t.map fun f => (f.jsonName, { type := schemaTypeOf f.goType, description := f.description })
    additionalProperties := if r.AllowAdditionalProperties then none else some false
    required := (t.filter fun f => !f.omitEmpty).map fun f => f.jsonName }

/-- A value carried in the extra fields of a schema parameter. -/
inductive ExtraValue where
  | bool (b : Bool)
  | text (s : Str)
  | names (l : List Str)
  deriving DecidableEq, Repr

/-- The SDK type `anthropic.ToolInputSchemaParam`: the properties, and the
extra fields that are serialised next to them.  The `type` member is the
constant `object`. -/
structure ToolInputSchemaParam where
  Properties : List (Str × PropertySchema)
  ExtraFields : List (Str × ExtraValue)
  deriving DecidableEq, Repr

/-- The function `GenerateSchema[T]()` of `tools/tools.go`. -/
def GenerateSchema (T : StructType) : ToolInputSchemaParam :=
  let reflector : Reflector := { AllowAdditionalProperties := false, DoNotReference := true }
  let schema := reflector.Reflect T
  { Properties := schema.properties, ExtraFields := [] }

/-- Whether a schema parameter, as sent to the API, forbids additional
properties: it has the member `additionalProperties` with value `false`. -/
def ToolInputSchemaParam.disallowsAdditional (p : ToolInputSchemaParam) : Bool :=
  decide (((bytes "additionalProperties"), ExtraValue.bool false) ∈ p.ExtraFields)

/-! ## `tools/read_file.go` -/

/-- The struct type `ReadFileInput`. -/
def ReadFileInputType : StructType :=
  [{ goName := (bytes "Path"), jsonName := (bytes "path"), omitEmpty := false, goType := (bytes "string")
     description := (bytes "The relative path of a file in the working directory.") }]

/-- The struct `ReadFileInput`. -/
structure ReadFileInput where
  Path : Str
  deriving DecidableEq, Repr

/-- The call `json.Unmarshal(input, &readFileInput)` on the zero value. -/
def ReadFileInput.unmarshal (input : RawMessage) : ReadFileInput × Option GoError :=
  let r := unmarshalStringStruct (bytes "ReadFileInput") (bytes "path")
    (bytes "tools.ReadFileInput") input []
  ({ Path := r.1 }, r.2)

/-- The struct `ReadFileTool`. -/
structure ReadFileTool where
  inputSchema : ToolInputSchemaParam
  deriving DecidableEq, Repr

/-- The constructor `NewReadFileTool()`. -/
def NewReadFileTool : ReadFileTool :=
  { inputSchema := GenerateSchema ReadFileInputType }

/-- The method `(*ReadFileTool).Name`. -/
def ReadFileTool.Name (_t : ReadFileTool) : Str := (bytes "read_file")

/-- The method `(*ReadFileTool).Description`. -/
def ReadFileTool.Description (_t : ReadFileTool) : Str :=
  (bytes "Read the contents of a given relative file path. Use this when you want to see what's inside a file. Do not use this with directory names.")

/-- The method `(*ReadFileTool).InputSchema`. -/
def ReadFileTool.InputSchema (t : ReadFileTool) : ToolInputSchemaParam := t.inputSchema

/-- The method `(*ReadFileTool).Execute`: the output string and the error. -/
def ReadFileTool.Execute (_t : ReadFileTool) (fs : FileSystem) (input : RawMessage) :
    Str × Option GoError :=
  match ReadFileInput.unmarshal input with
  | (_, some err) => ([], some err)
  | (readFileInput, none) =>
    match fs.readFile readFileInput.Path with
    | .error err => ([], some err)
    | .ok content => (content, none)

/-! ## `path/filepath` on Unix -/

/-- The elements of a path: the pieces between separators, empty ones
included. -/
def splitSep : Str → List Str
  | [] => [[]]
  | c :: rest =>
    if c = 47 then [] :: splitSep rest
    else (c :: (splitSep rest).headD []) :: (splitSep rest).tail

/-- The function `strings.Join(elems, "/")`. -/
def joinSep : List Str → Str
  | [] => []
  | [e] => e
  | e :: es => e ++ 47 :: joinSep es

/-- The element `..`. -/
def dotdot : Str := [46, 46]

/-- One round of the loop of `filepath.Clean`, on the element just read.
`out` holds the elements written so far, the last one first.  Empty and `.`
elements are dropped; `..` removes the last written element when that is a
name, is dropped at the root, and is written otherwise; a name is written. -/
def cleanStep (rooted : Bool) (out : List Str) (e : Str) : List Str :=
  if e = [] ∨ e = [46] then out
  else if e = dotdot then
    match out with
    | last :: before =>
      if last = dotdot then (if rooted then out else dotdot :: out) else before
    | [] => if rooted then out else [dotdot]
  else e :: out

/-- A cleaned path: whether it starts at the root, and its elements. -/
structure CleanPath where
  rooted : Bool
  elems : List Str
  deriving DecidableEq, Repr

/-- The elements `filepath.Clean` keeps of a non-empty path. -/
def cleanPath (path : Str) : CleanPath :=
  let rooted := decide (path.head? = some 47)
  { rooted := rooted, elems := ((splitSep path).foldl (cleanStep rooted) []).reverse }

/-- The string of a cleaned path; the empty relative path is `.`. -/
def CleanPath.render (p : CleanPath) : Str :=
  if p.rooted then 47 :: joinSep p.elems
  else if p.elems = [] then [46]
  else joinSep p.elems

/-- The function `filepath.Clean`. -/
def Clean (path : Str) : Str :=
  if path = [] then [46] else (cleanPath path).render

/-- The function `filepath.Join`: the elements from the first non-empty one
on, joined by the separator and cleaned. -/
def Join (elem : List Str) : Str :=
  match elem.dropWhile (fun e => decide (e = [])) with
  | [] => []
  | es => Clean (joinSep es)

/-- The elements of a string as the scan of `filepath.Rel` delimits them: an
empty piece after the last separator is not an element. -/
def relElems (s : Str) : List Str :=
  if (splitSep s).getLast? = some [] then (splitSep s).dropLast else splitSep s

/-- The scan of `filepath.Rel`: equal leading elements are passed over.
Returns what is left of the base and of the target. -/
def relScan : List Str → List Str → List Str × List Str
  | b :: bs, t :: ts => if t = b then relScan bs ts else (b :: bs, t :: ts)
  | [], ts => ([], ts)
  | bs, [] => (bs, [])

/-- The error of `filepath.Rel`. -/
def relError (basepath targpath : Str) : GoError :=
  .plain ((bytes "Rel: can't make ") ++ targpath ++ (bytes " relative to ") ++ basepath)

/-- The function `filepath.Rel`: both paths are cleaned; equal paths give `.`;
a rooted and a relative path cannot be related; otherwise the common leading
elements are passed over, every element left of the base is left by `..`,
which is impossible when that element is `..` itself, and the elements left of
the target follow. -/
def Rel (basepath targpath : Str) : Except GoError Str :=
  let base := Clean basepath
  let targ := Clean targpath
  if targ = base then .ok [46]
  else
    let base := if base = [46] then [] else base
    let targ := if targ = [46] then [] else targ
    let baseSlashed := decide (base.head? = some 47)
    let targSlashed := decide (targ.head? = some 47)
    if baseSlashed != targSlashed then .error (relError basepath targpath)
    else
      let r := relScan (relElems base) (relElems targ)
      if r.1.head? = some dotdot then .error (relError basepath targpath)
      else if r.1 ≠ [] then
        .ok (joinSep (r.1.map fun _ => dotdot) ++ (if r.2 ≠ [] then 47 :: joinSep r.2 else []))
      else .ok (joinSep r.2)

/-- What the walk function sees of `os.FileInfo`. -/
structure FileInfo where
  isDir : Bool
  deriving DecidableEq, Repr

/-- A `filepath.WalkFunc` over a state `σ`: the closure's captured variables
are passed in and handed back. -/
abbrev WalkFunc (σ : Type) := σ → Str → Option FileInfo → Option GoError → σ × Option GoError

mutual
/-- The function `walk` of `path/filepath`: the walk function is called on the
node, and for a readable directory on every entry below it, in order, until
a call returns an error. -/
def walk {σ : Type} (walkFn : WalkFunc σ) (path : Str) (node : Node) (s : σ) :
    σ × Option GoError :=
  match node with
  | .file => walkFn s path (some { isDir := false }) none
  | .symlink _ => walkFn s path (some { isDir := false }) none
  | .unstatable err => walkFn s path none (some err)
  | .dir readErr entries =>
    let r := walkFn s path (some { isDir := true }) readErr
    if readErr.isSome || r.2.isSome then r
    else walkEntries walkFn path entries r.1
/-- The loop of `walk` over the names of a directory. -/
def walkEntries {σ : Type} (walkFn : WalkFunc σ) (path : Str) :
    List (Str × Node) → σ → σ × Option GoError
  | [], s => (s, none)
  | (name, child) :: rest, s =>
    let filename := Join [path, name]
    let r := match child with
      | .unstatable err => walkFn s filename none (some err)
      | other => walk walkFn filename other s
    match r.2 with
    | some err => (r.1, some err)
    | none => walkEntries walkFn path rest r.1
end

/-- The function `filepath.Walk`.  No error of the model is `SkipDir` or
`SkipAll`, so the error of the walk is returned as it is. -/
def Walk {σ : Type} (fs : FileSystem) (root : Str) (walkFn : WalkFunc σ) (s : σ) :
    σ × Option GoError :=
  match fs.lstat root with
  | .error err => walkFn s root none (some err)
  | .ok node => walk walkFn root node s

/-! ## `encoding/json`: encoding a slice of strings -/

/-- A Go slice: `none` is the `nil` slice. -/
abbrev Slice (α : Type) := Option (List α)

/-- The built-in `append(s, x)`. -/
def Slice.append {α : Type} (s : Slice α) (x : α) : Slice α :=
  match s with
  | none => some [x]
  | some l => some (l ++ [x])

/-- The hexadecimal digit of a number below sixteen. -/
def hexDigit (n : Nat) : Nat := (bytes "0123456789abcdef").getD n 48

/-- The escape `\u` followed by four hexadecimal digits. -/
def unicodeEscape (n : Nat) : Str :=
  [92, 117, hexDigit (n / 4096 % 16), hexDigit (n / 256 % 16), hexDigit (n / 16 % 16),
   hexDigit (n % 16)]

/-- How `json.Marshal` writes a byte below 0x80 (HTML escaping on): the quote
and the backslash get a backslash, the control characters their short escape
or a `\u` escape, the characters `<`, `>` and `&` a `\u` escape, and every
other byte is written as it is. -/
def escapeASCII (b : Nat) : Str :=
  if b = 34 ∨ b = 92 then [92, b]
  else if b = 8 then [92, 98]
  else if b = 12 then [92, 102]
  else if b = 10 then [92, 110]
  else if b = 13 then [92, 114]
  else if b = 9 then [92, 116]
  else if b < 32 ∨ b = 60 ∨ b = 62 ∨ b = 38 then unicodeEscape b
  else [b]

/-- The width a first byte announces (table `first` of `unicode/utf8`): 2, 3
or 4, and 0 for a byte that starts no sequence of several bytes. -/
def leadWidth (b : Nat) : Nat :=
  if 0xC2 ≤ b ∧ b ≤ 0xDF then 2
  else if 0xE0 ≤ b ∧ b ≤ 0xEF then 3
  else if 0xF0 ≤ b ∧ b ≤ 0xF4 then 4
  else 0

/-- The least second byte accepted after a first byte (`acceptRanges`). -/
def acceptLo (b : Nat) : Nat :=
  if b = 0xE0 then 0xA0 else if b = 0xF0 then 0x90 else 0x80

/-- The greatest second byte accepted after a first byte (`acceptRanges`). -/
def acceptHi (b : Nat) : Nat :=
  if b = 0xED then 0x9F else if b = 0xF4 then 0x8F else 0xBF

/-- Whether a byte is a continuation byte, 0x80 to 0xBF. -/
def isCont (b : Nat) : Bool :=
  decide (0x80 ≤ b ∧ b ≤ 0xBF)

/-- The function `utf8.DecodeRuneInString`: the rune at the start of a string
and its width in bytes.  A byte that starts no valid sequence gives the
replacement character U+FFFD with width 1. -/
def DecodeRune (s : Str) : Nat × Nat :=
  match s with
  | [] => (0xFFFD, 0)
  | s0 :: rest =>
    if s0 < 0x80 then (s0, 1)
    else if leadWidth s0 = 0 ∨ rest.length + 1 < leadWidth s0 then (0xFFFD, 1)
    else
      match rest with
      | [] => (0xFFFD, 1)
      | s1 :: rest1 =>
        if s1 < acceptLo s0 ∨ acceptHi s0 < s1 then (0xFFFD, 1)
        else if leadWidth s0 ≤ 2 then (s0 % 32 * 64 + s1 % 64, 2)
        else
          match rest1 with
          | [] => (0xFFFD, 1)
          | s2 :: rest2 =>
            if isCont s2 = false then (0xFFFD, 1)
            else if leadWidth s0 ≤ 3 then (s0 % 16 * 4096 + s1 % 64 * 64 + s2 % 64, 3)
            else
              match rest2 with
              | [] => (0xFFFD, 1)
              | s3 :: _ =>
                if isCont s3 = false then (0xFFFD, 1)
                else (s0 % 8 * 262144 + s1 % 64 * 4096 + s2 % 64 * 64 + s3 % 64, 4)

/-- The loop of `appendString` of `encoding/json` over the bytes still to be
written; `fuel` bounds the number of rounds, and every round takes at least
one byte.  A byte below 0x80 is escaped by `escapeASCII`.  Otherwise the rune
at this place is decoded: a byte that starts no valid sequence is written as
the escape `\ufffd`, the runes U+2028 and U+2029 as their `\u` escape, and the
bytes of any other rune as they are. -/
def appendString : Nat → Str → Str
  | 0, _ => []
  | _ + 1, [] => []
  | fuel + 1, b :: rest =>
    if b < 0x80 then escapeASCII b ++ appendString fuel rest
    else if (DecodeRune (b :: rest)).1 = 0xFFFD ∧ (DecodeRune (b :: rest)).2 = 1 then
      bytes "\\ufffd" ++ appendString fuel rest
    else if (DecodeRune (b :: rest)).1 = 0x2028 ∨ (DecodeRune (b :: rest)).1 = 0x2029 then
      unicodeEscape (DecodeRune (b :: rest)).1 ++
        appendString fuel (rest.drop ((DecodeRune (b :: rest)).2 - 1))
    else
      (b :: rest).take (DecodeRune (b :: rest)).2 ++
        appendString fuel (rest.drop ((DecodeRune (b :: rest)).2 - 1))

/-- How `json.Marshal` writes a string: between quotes, its bytes as
`appendString` writes them. -/
def quoteString (s : Str) : Str :=
  34 :: (appendString s.length s ++ [34])

/-- The encoded elements of an array, separated by commas. -/
def joinComma : List Str → Str
  | [] => []
  | [e] => e
  | e :: es => e ++ 44 :: joinComma es

/-- The function `json.Marshal` on a `[]string`: a `nil` slice is written
`null`, any other slice as an array.  It cannot fail. -/
def Marshal (v : Slice Str) : Str × Option GoError :=
  match v with
  | none => ((bytes "null"), none)
  | some l => (91 :: (joinComma (l.map quoteString) ++ [93]), none)

/-! ## `tools/list_files.go` -/

/-- The struct type `ListFilesInput`. -/
def ListFilesInputType : StructType :=
  [{ goName := (bytes "Path"), jsonName := (bytes "path"), omitEmpty := true, goType := (bytes "string")
     description := (bytes "Optional relative path to list files from. Defaults to current directory if not provided.") }]

/-- The struct `ListFilesInput`. -/
structure ListFilesInput where
  Path : Str
  deriving DecidableEq, Repr

/-- The call `json.Unmarshal(input, &listFilesInput)` on the zero value. -/
def ListFilesInput.unmarshal (input : RawMessage) : ListFilesInput × Option GoError :=
  let r := unmarshalStringStruct (bytes "ListFilesInput") (bytes "path")
    (bytes "tools.ListFilesInput") input []
  ({ Path := r.1 }, r.2)

/-- The struct `ListFilesTool`. -/
structure ListFilesTool where
  inputSchema : ToolInputSchemaParam
  deriving DecidableEq, Repr

/-- The constructor `NewListFilesTool()`. -/
def NewListFilesTool : ListFilesTool :=
  { inputSchema := GenerateSchema ListFilesInputType }

/-- The method `(*ListFilesTool).Name`. -/
def ListFilesTool.Name (_t : ListFilesTool) : Str := (bytes "list_files")

/-- The method `(*ListFilesTool).Description`. -/
def ListFilesTool.Description (_t : ListFilesTool) : Str :=
  (bytes "List files and directories at a given path. If no path is provided, lists files in the current directory.")

/-- The method `(*ListFilesTool).InputSchema`. -/
def ListFilesTool.InputSchema (t : ListFilesTool) : ToolInputSchemaParam := t.inputSchema

/-- The closure passed to `filepath.Walk` in `Execute`; its captured variable
`files` is the state.  When `err` is `nil` the walk passes a file info. -/
def ListFilesTool.walkFunc (dir : Str) : WalkFunc (Slice Str) :=
  fun files path info err =>
    match err with
    | some e => (files, some e)
    | none =>
      match Rel dir path with
      | .error e => (files, some e)
      | .ok relPath =>
        if relPath ≠ [46] then
          if (info.map fun i => i.isDir) = some true then
            (files.append (relPath ++ [47]), none)
          else
            (files.append relPath, none)
        else (files, none)

/-- The method `(*ListFilesTool).Execute`: the output string and the error. -/
def ListFilesTool.Execute (_t : ListFilesTool) (fs : FileSystem) (input : RawMessage) :
    Str × Option GoError :=
  match ListFilesInput.unmarshal input with
  | (_, some err) => ([], some err)
  | (listFilesInput, none) =>
    let dir := if listFilesInput.Path ≠ [] then listFilesInput.Path else [46]
    match Walk fs dir (ListFilesTool.walkFunc dir) none with
    | (_, some err) => ([], some err)
    | (files, none) =>
      match Marshal files with
      | (_, some err) => ([], some err)
      | (result, none) => (result, none)

/-! ## The agent loop (package `agent`)

The package `agent` is imported by `main.go` and is not among the sources; it
is modelled from sections 3 and 4 of the specification. -/

/-- Modelled from the spec: the interface `agent.ToolDefinition` (spec section
3, "ToolDefinition"), whose declaration is in the missing package `agent`:
name, description, input schema and the execute function. -/
structure ToolDefinition where
  Name : Str
  Description : Str
  InputSchema : ToolInputSchemaParam
  Execute : RawMessage → Str × Option GoError

/-- Modelled from the spec: the role of a message (spec section 3). -/
inductive Role where
  | user
  | assistant
  deriving DecidableEq, Repr

/-- Modelled from the spec: the content blocks of a message (spec section 3,
"ContentBlock"). -/
inductive ContentBlock where
  | text (s : Str)
  | toolUse (id : Str) (name : Str) (input : RawMessage)
  | toolResult (toolUseId : Str) (content : Str) (isError : Bool)

/-- Modelled from the spec: a message, a role and its ordered content (spec
section 3, "Message"). -/
structure Message where
  role : Role
  content : List ContentBlock

/-- Modelled from the spec: the conversation, the ordered sequence of
messages (spec section 3). -/
abbrev Conversation := List Message

/-- Modelled from the spec: a block of a model response, a text or a tool use
(spec section 6, "Model Client boundary"). -/
inductive ResponseBlock where
  | text (s : Str)
  | toolUse (id : Str) (name : Str) (input : RawMessage)

/-- Modelled from the spec: a response block as a content block of the
assistant message. -/
def ResponseBlock.toContent : ResponseBlock → ContentBlock
  | .text s => .text s
  | .toolUse id name input => .toolUse id name input

/-- Modelled from the spec: the model client (spec section 6), a remote call
that answers a conversation with the blocks of one assistant message or fails.
The first argument is the number of calls made before, so that the answer need
not be a function of the conversation. -/
abbrev ModelClient := Nat → Conversation → Except GoError (List ResponseBlock)

/-- Modelled from the spec: the agent (spec section 3, "Agent"): the model
client, the user-input source and the tool catalog.  The input source is a
closure over a state of type `ι`, passed in and handed back. -/
structure Agent (ι : Type) where
  client : ModelClient
  getUserMessage : ι → (Str × Bool) × ι
  tools : List ToolDefinition

/-- Modelled from the spec: the constructor `agent.New` called by `main`. -/
def Agent.New {ι : Type} (client : ModelClient) (getUserMessage : ι → (Str × Bool) × ι)
    (tools : List ToolDefinition) : Agent ι :=
  { client := client, getUserMessage := getUserMessage, tools := tools }

/-- Modelled from the spec: the states of the agent loop (spec section 4.2). -/
inductive Phase where
  | AwaitingUserInput
  | CallingModel
  | ExecutingTools
  | Done (err : Option GoError)
  deriving DecidableEq, Repr

/-- Modelled from the spec: the state of a run: the phase, the conversation,
the state of the input source, the number of model calls made and the text
written to standard output. -/
structure LoopState (ι : Type) where
  phase : Phase
  conversation : Conversation
  input : ι
  calls : Nat
  stdout : Str

/-- Modelled from the spec: catalog lookup `findByName` (spec section 4.1). -/
def findByName (tools : List ToolDefinition) (name : Str) : Option ToolDefinition :=
  tools.find? fun t => decide (t.Name = name)

/-- Modelled from the spec: the execution of one tool use (spec section 4.2,
step 4): an unknown name and a failed execution both become an error result,
a successful execution a result with the output. -/
def executeToolUse (tools : List ToolDefinition) (id name : Str) (input : RawMessage) :
    ContentBlock :=
  match findByName tools name with
  | none => .toolResult id ((bytes "tool not found: ") ++ name) true
  | some t =>
    match t.Execute input with
    | (_, some err) => .toolResult id err.Error true
    | (output, none) => .toolResult id output false

/-- Modelled from the spec: the tool results of the tool-use blocks of a
message, in the order of the blocks (spec section 4.2, step 4). -/
def toolResults (tools : List ToolDefinition) : List ContentBlock → List ContentBlock
  | [] => []
  | .toolUse id name input :: rest => executeToolUse tools id name input :: toolResults tools rest
  | _ :: rest => toolResults tools rest

/-- Modelled from the spec: the text blocks of a response as written to the
output, one line each (spec section 4.2, step 3). -/
def printedText : List ResponseBlock → Str
  | [] => []
  | .text s :: rest => s ++ 10 :: printedText rest
  | _ :: rest => printedText rest

/-- Modelled from the spec: whether a response holds a tool-use block. -/
def hasToolUse : List ResponseBlock → Bool
  | [] => false
  | .toolUse _ _ _ :: _ => true
  | _ :: rest => hasToolUse rest

/-- Modelled from the spec: one transition of the agent loop (spec section
4.2).  Awaiting input: end of input ends the run without error, a line is
appended as a user message.  Calling the model: a failure ends the run with
that error; the answer is appended as an assistant message, its text is
written out, and the loop goes on to execute tools if the answer holds a tool
use and to await input otherwise.  Executing tools: the results of the tool
uses of the last message are appended as one user message and the model is
called again. -/
def Agent.step {ι : Type} (a : Agent ι) (s : LoopState ι) : LoopState ι :=
  match s.phase with
  | .AwaitingUserInput =>
    match a.getUserMessage s.input with
    | ((_, false), input) => { s with phase := .Done none, input := input }
    | ((line, true), input) =>
      { s with phase := .CallingModel, input := input
               conversation := s.conversation ++ [{ role := .user, content := [.text line] }] }
  | .CallingModel =>
    match a.client s.calls s.conversation with
    | .error err => { s with phase := .Done (some err), calls := s.calls + 1 }
    | .ok blocks =>
      { s with phase := if hasToolUse blocks then .ExecutingTools else .AwaitingUserInput
               calls := s.calls + 1
               stdout := s.stdout ++ printedText blocks
               conversation := s.conversation ++
                 [{ role := .assistant, content := blocks.map ResponseBlock.toContent }] }
  | .ExecutingTools =>
    match s.conversation.getLast? with
    | none => { s with phase := .CallingModel }
    | some m =>
      { s with phase := .CallingModel
               conversation := s.conversation ++
                 [{ role := .user, content := toolResults a.tools m.content }] }
  | .Done _ => s

/-- Modelled from the spec: the state in which a run starts: the empty
conversation, awaiting user input. -/
def LoopState.start {ι : Type} (input : ι) : LoopState ι :=
  { phase := .AwaitingUserInput, conversation := [], input := input, calls := 0, stdout := [] }

/-- Modelled from the spec: the state of `Run` after `fuel` transitions. -/
def Agent.Run {ι : Type} (a : Agent ι) (input : ι) : Nat → LoopState ι
  | 0 => LoopState.start input
  | fuel + 1 => a.step (a.Run input fuel)

/-! ## `main.go` -/

/-- A `bufio.Scanner` over standard input: the lines still to be read, how the
stream ends after them (`none` is a clean end of input, `some e` a failed
read), the token of the last successful `Scan` and the error `Err` reports. -/
structure Scanner where
  lines : List Str
  failure : Option GoError
  text : Str
  err : Option GoError
  deriving DecidableEq, Repr

/-- The method `Scanner.Scan`: true with the next line as token, or false at
the end of the input and at a failed read, which `Err` then tells apart.  The
model describes a scanner up to its first false `Scan`, which is where
`getUserMessage` makes the loop stop reading; what `bufio` hands out on a
`Scan` after a failed read is not described. -/
def Scanner.Scan (s : Scanner) : Bool × Scanner :=
  match s.lines with
  | line :: rest => (true, { s with lines := rest, text := line })
  | [] => (false, { s with text := [], err := s.failure })

/-- The method `Scanner.Text`. -/
def Scanner.Text (s : Scanner) : Str := s.text

/-- The method `Scanner.Err`. -/
def Scanner.Err (s : Scanner) : Option GoError := s.err

/-- The closure `getUserMessage` of `main`, over the scanner it captures. -/
def getUserMessage (scanner : Scanner) : (Str × Bool) × Scanner :=
  let r := scanner.Scan
  if !r.1 then (([], false), r.2)
  else ((r.2.Text, true), r.2)

/-- A tool as a value of the interface `agent.ToolDefinition`. -/
def ReadFileTool.toToolDefinition (t : ReadFileTool) (fs : FileSystem) : ToolDefinition :=
  { Name := t.Name, Description := t.Description, InputSchema := t.InputSchema
    Execute := t.Execute fs }

/-- A tool as a value of the interface `agent.ToolDefinition`. -/
def ListFilesTool.toToolDefinition (t : ListFilesTool) (fs : FileSystem) : ToolDefinition :=
  { Name := t.Name, Description := t.Description, InputSchema := t.InputSchema
    Execute := t.Execute fs }

/-- The slice `agentTools` of `main`; the tools run against the file system
`fs`. -/
def agentTools (fs : FileSystem) : List ToolDefinition :=
  [NewReadFileTool.toToolDefinition fs, NewListFilesTool.toToolDefinition fs]

/-- What a process leaves behind: the text on standard output and the exit
status. -/
structure Process where
  stdout : Str
  exitStatus : Nat
  deriving DecidableEq, Repr

/-- The function `main`.  `Run` is the method `(*Agent).Run` of the package
`agent`: what it writes to standard output and the error it returns.  After
`main` returns, the Go runtime exits with status 0; `main` has no other
exit. -/
def main (Run : Agent Scanner → Scanner → Str × Option GoError) (client : ModelClient)
    (fs : FileSystem) (stdin : Scanner) : Process :=
  let agentInstance := Agent.New client getUserMessage (agentTools fs)
  let r := Run agentInstance stdin
  match r.2 with
  | some err => { stdout := r.1 ++ ((bytes "Error: ") ++ err.Error ++ [10]), exitStatus := 0 }
  | none => { stdout := r.1, exitStatus := 0 }

/-! ## The listing as the specification words it -/

/-- The directory `Execute` walks for a decoded input: the path, or `.` when
the path is empty. -/
def ListFilesInput.dir (i : ListFilesInput) : Str :=
  if i.Path ≠ [] then i.Path else [46]

/-- Whether a string can be the name of a directory entry: it is not empty,
holds no separator, and is neither `.` nor `..`. -/
def validName (n : Str) : Bool :=
  decide (n ≠ [] ∧ 47 ∉ n ∧ n ≠ [46] ∧ n ≠ dotdot)

/-- Whether a node is a directory (`FileInfo.IsDir` of its `Lstat`). -/
def Node.isDir : Node → Bool
  | .dir _ _ => true
  | _ => false

mutual
/-- Whether every entry below a node has a valid name. -/
def Node.namesValid : Node → Bool
  | .dir _ entries => entriesValid entries
  | _ => true
/-- Whether every entry of a list, and below it, has a valid name. -/
def entriesValid : List (Str × Node) → Bool
  | [] => true
  | (name, child) :: rest => validName name && child.namesValid && entriesValid rest
end

mutual
/-- The files and directories strictly below a node: for each the names on the
way down to it, and whether it is a directory.  The node itself is left
out. -/
def Node.itemsBelow : Node → List (List Str × Bool)
  | .dir _ entries => itemsOf entries
  | _ => []
/-- The items of a list of entries: each entry, then what is below it. -/
def itemsOf : List (Str × Node) → List (List Str × Bool)
  | [] => []
  | (name, child) :: rest =>
    ([name], child.isDir) :: (child.itemsBelow.map fun it => (name :: it.1, it.2)) ++ itemsOf rest
end

/-- The entry the listing holds for an item: its relative path, with a
trailing separator exactly for a directory. -/
def entryOf (item : List Str × Bool) : Str :=
  joinSep item.1 ++ (if item.2 then [47] else [])

/-- The elements of a slice; the `nil` slice has none. -/
def Slice.toList {α : Type} (s : Slice α) : List α :=
  match s with
  | none => []
  | some l => l

/-- The slice after appending the elements of a list one by one. -/
def Slice.appendAll {α : Type} (s : Slice α) (l : List α) : Slice α :=
  l.foldl Slice.append s

/-- The entry of the node itself, which the listing holds unless the node is
the root of the walk. -/
def selfEntry (rel : List Str) (node : Node) : List Str :=
  if rel = [] then [] else [entryOf (rel, node.isDir)]

/-! ## Reading a JSON array of strings back -/

/-- The value of a hexadecimal digit. -/
def hexValue (c : Nat) : Option Nat :=
  if 48 ≤ c ∧ c ≤ 57 then some (c - 48)
  else if 97 ≤ c ∧ c ≤ 102 then some (c - 87)
  else if 65 ≤ c ∧ c ≤ 70 then some (c - 55)
  else none

/-- The value of four hexadecimal digits. -/
def hexValue4 (a b c d : Nat) : Option Nat :=
  match hexValue a, hexValue b, hexValue c, hexValue d with
  | some x, some y, some z, some w => some (x * 4096 + y * 256 + z * 16 + w)
  | _, _, _, _ => none

/-- The byte a short escape stands for. -/
def unescapeByte (c : Nat) : Option Nat :=
  if c = 34 then some 34
  else if c = 92 then some 92
  else if c = 47 then some 47
  else if c = 98 then some 8
  else if c = 102 then some 12
  else if c = 110 then some 10
  else if c = 114 then some 13
  else if c = 116 then some 9
  else none

/-- Reading a JSON string after its opening quote: the bytes of the string,
and the text after the closing quote.  A `\u` escape is read as the UTF-8
encoding of its code point, half of a surrogate pair as that of the
replacement character; a byte that is no escape is read as it is. -/
def decodeStringBody : Str → Option (Str × Str)
  | [] => none
  | c :: rest =>
    if c = 34 then some ([], rest)
    else if c = 92 then
      match rest with
      | [] => none
      | e :: rest1 =>
        if e = 117 then
          match rest1 with
          | h1 :: h2 :: h3 :: h4 :: rest2 =>
            match hexValue4 h1 h2 h3 h4 with
            | none => none
            | some n => (decodeStringBody rest2).map fun r => (encodeRune n ++ r.1, r.2)
          | _ => none
        else
          match unescapeByte e with
          | none => none
          | some ch => (decodeStringBody rest1).map fun r => (ch :: r.1, r.2)
    else if c < 32 then none
    else (decodeStringBody rest).map fun r => (c :: r.1, r.2)

/-- Reading the elements of a JSON array of strings up to the closing bracket,
which ends the text.  At most `fuel` elements are read. -/
def decodeElems : Nat → Str → Option (List Str)
  | 0, _ => none
  | fuel + 1, input =>
    match input with
    | 34 :: body =>
      match decodeStringBody body with
      | some (s, 44 :: rest) => (decodeElems fuel rest).map fun l => s :: l
      | some (s, [93]) => some [s]
      | _ => none
    | _ => none

/-- Reading a JSON text, written without blanks, into a list of strings: an
array of strings, or `null`, which `json.Unmarshal` reads into a slice as the
`nil` slice. -/
def decodeStrings (text : Str) : Option (List Str) :=
  if text = bytes "null" then some []
  else if text = bytes "[]" then some []
  else
    match text with
    | 91 :: rest => decodeElems rest.length rest
    | _ => none

/-- Valid UTF-8: the string is the encoding of a sequence of Unicode scalar
values (`utf8.ValidString`). -/
def ValidUTF8 (s : Str) : Prop :=
  ∃ runes : List Nat, (∀ r ∈ runes, isScalar r = true) ∧ s = runes.flatMap encodeRune

mutual
/-- The names of all entries below a node. -/
def Node.names : Node → List Str
  | .dir _ entries => entriesNames entries
  | _ => []
/-- The names of a list of entries, and of all entries below them. -/
def entriesNames : List (Str × Node) → List Str
  | [] => []
  | (name, child) :: rest => name :: (child.names ++ entriesNames rest)
end

/-! ## Invariants used in the proofs -/

/-- What the walk of `Execute` over the directory `dir` collects below a node
found at the names `rel` under `dir`: when the walk ends without error, the
node's own entry and the entries of the items below it were appended, in
order. -/
def CollectsNode (dir : Str) (node : Node) : Prop :=
  ∀ (path : Str) (rel : List Str) (files : Slice Str),
    path ≠ [] → (∀ n ∈ rel, validName n = true) →
    cleanPath path =
      { rooted := (cleanPath dir).rooted, elems := (cleanPath dir).elems ++ rel } →
    node.namesValid = true →
    (walk (ListFilesTool.walkFunc dir) path node files).2 = none →
    (walk (ListFilesTool.walkFunc dir) path node files).1 =
      files.appendAll (selfEntry rel node ++
        node.itemsBelow.map fun it => entryOf (rel ++ it.1, it.2))

/-- What the walk of `Execute` collects in the entries of a directory found at
the names `rel` under `dir`. -/
def CollectsEntries (dir : Str) (entries : List (Str × Node)) : Prop :=
  ∀ (path : Str) (rel : List Str) (files : Slice Str),
    path ≠ [] → (∀ n ∈ rel, validName n = true) →
    cleanPath path =
      { rooted := (cleanPath dir).rooted, elems := (cleanPath dir).elems ++ rel } →
    entriesValid entries = true →
    (walkEntries (ListFilesTool.walkFunc dir) path entries files).2 = none →
    (walkEntries (ListFilesTool.walkFunc dir) path entries files).1 =
      files.appendAll ((itemsOf entries).map fun it => entryOf (rel ++ it.1, it.2))

mutual
/-- Whether no directory below a node holds two entries of the same name. -/
def Node.namesDistinct : Node → Bool
  | .dir _ entries => entriesDistinct entries
  | _ => true
/-- Whether the names of a list of entries are pairwise different, here and
below. -/
def entriesDistinct : List (Str × Node) → Bool
  | [] => true
  | (name, child) :: rest =>
    decide (name ∉ rest.map Prod.fst) && child.namesDistinct && entriesDistinct rest
end

/-- Items with pairwise different paths, each path made of valid names and
starting with one of the names `heads`. -/
def GoodItems (items : List (List Str × Bool)) (heads : List Str) : Prop :=
  (items.map Prod.fst).Nodup ∧
  ∀ it ∈ items, (∃ n tail, it.1 = n :: tail ∧ n ∈ heads) ∧ ∀ x ∈ it.1, validName x = true

/-- A cleaned path in normal form: some `..` elements, none at all when the
path is rooted, followed by names. -/
def Canon (rooted : Bool) (elems : List Str) : Prop :=
  ∃ k names, elems = List.replicate k dotdot ++ names ∧ (rooted = true → k = 0) ∧
    ∀ n ∈ names, validName n = true

/-! ## The pairing of tool uses and tool results -/

/-- The ids of the tool-use blocks of a message content, in order. -/
def toolUseIds : List ContentBlock → List Str
  | [] => []
  | .toolUse id _ _ :: rest => id :: toolUseIds rest
  | _ :: rest => toolUseIds rest

/-- The tool-use ids of the tool-result blocks of a message content, in
order. -/
def toolResultIds : List ContentBlock → List Str
  | [] => []
  | .toolResult id _ _ :: rest => id :: toolResultIds rest
  | _ :: rest => toolResultIds rest

/-- The pairing between a message and the message that immediately follows it:
every tool use of an assistant message has exactly one tool result with its id
in the following message, which is a user message; and every tool result of
the following message answers a tool use of the message, which is an assistant
message. -/
def Linked (m next : Message) : Prop :=
  (m.role = .assistant → ∀ id ∈ toolUseIds m.content,
    next.role = .user ∧
      (toolResultIds next.content).countP (fun x => decide (x = id)) = 1) ∧
  (∀ id ∈ toolResultIds next.content, m.role = .assistant ∧ id ∈ toolUseIds m.content)

/-- The pairing up to the last message: consecutive messages are linked and
the first message holds no tool result.  The tool uses of the last message may
still be unanswered. -/
def PairedOpen (conv : Conversation) : Prop :=
  conv.Chain' Linked ∧ ∀ m ∈ conv.head?, toolResultIds m.content = []

/-- The pairing of a conversation: consecutive messages are linked, the first
message holds no tool result, and the last message, if it is an assistant
message, holds no tool use. -/
def Paired (conv : Conversation) : Prop :=
  PairedOpen conv ∧ ∀ m ∈ conv.getLast?, m.role = .assistant → toolUseIds m.content = []

/-- The invariant of the agent loop: outside the state `ExecutingTools` the
conversation is paired; in that state it is paired up to its last message,
which is the assistant message whose tool uses are being executed and whose
tool-use ids are pairwise different. -/
def LoopInvariant {ι : Type} (s : LoopState ι) : Prop :=
  match s.phase with
  | .ExecutingTools =>
    PairedOpen s.conversation ∧
    ∃ m, s.conversation.getLast? = some m ∧ m.role = .assistant ∧
      toolResultIds m.content = [] ∧ (toolUseIds m.content).Nodup
  | _ => Paired s.conversation

/-! ## Concrete inputs used by the closed statements below -/

/-- The error of a missing path. -/
def notExist (op path : Str) : GoError :=
  .pathError op path (bytes "no such file or directory")

/-- The error of a directory that may not be read. -/
def permissionDenied (path : Str) : GoError :=
  .pathError (bytes "open") path (bytes "permission denied")

/-- A directory with a file `a.txt` and a directory `sub` that holds a file and
an empty directory. -/
def sampleRoot : Node :=
  .dir none [((bytes "a.txt"), .file),
             ((bytes "sub"), .dir none [((bytes "b.go"), .file), ((bytes "e"), .dir none [])])]

/-- A file system whose working directory is `sampleRoot`, with an empty
directory `empty` and a directory `mixed` that holds a file and an unreadable
directory. -/
def sampleFS : FileSystem :=
  { readFile := fun p =>
      if p = (bytes "a.txt") then .ok (bytes "hello\n") else .error (notExist (bytes "open") p)
    lstat := fun p =>
      if p = (bytes ".") then .ok sampleRoot
      else if p = (bytes "empty") then .ok (.dir none [])
      else if p = (bytes "mixed") then
        .ok (.dir none [((bytes "a.txt"), .file),
                        ((bytes "locked"), .dir (some (permissionDenied (bytes "mixed/locked"))) [])])
      else .error (notExist (bytes "lstat") p) }

/-- A directory that holds two files whose names are the single bytes FE and
FF: names a Linux file system accepts, and no valid UTF-8. -/
def rawRoot : Node :=
  .dir none [([0xFE], .file), ([0xFF], .file)]

/-- A file system whose working directory is `rawRoot`. -/
def rawFS : FileSystem :=
  { readFile := fun p => .error (notExist (bytes "open") p)
    lstat := fun p => if p = bytes "." then .ok rawRoot else .error (notExist (bytes "lstat") p) }

/-- A working directory that holds the symbolic link `link` to its directory
`sub`, which holds one file. -/
def linkedRoot : Node :=
  .dir none [(bytes "link", .symlink (bytes "sub")), (bytes "sub", .dir none [(bytes "b.go", .file)])]

/-- A file system whose working directory is `linkedRoot`; `Lstat` of the link
reports the link, not the directory it points to. -/
def linkedFS : FileSystem :=
  { readFile := fun p => .error (notExist (bytes "open") p)
    lstat := fun p =>
      if p = bytes "." then .ok linkedRoot
      else if p = bytes "link" then .ok (.symlink (bytes "sub"))
      else .error (notExist (bytes "lstat") p) }

/-- The raw message of an object with the one member `path`. -/
def pathInput (path : Str) : RawMessage :=
  .valid (.obj [((bytes "path"), .str path)])

/-- A scanner at the end of its input after a failed read. -/
def failedScanner : Scanner :=
  { lines := [], failure := some (.plain (bytes "read /dev/stdin: input/output error"))
    text := [], err := none }

/-- A scanner at a clean end of its input. -/
def endedScanner : Scanner :=
  { lines := [], failure := none, text := [], err := none }

/-- A run that writes nothing and fails. -/
def failingRun : Agent Scanner → Scanner → Str × Option GoError :=
  fun _ _ => ([], some (.plain (bytes "connection refused")))

/-- A model client that always fails. -/
def downClient : ModelClient :=
  fun _ _ => .error (.plain (bytes "connection refused"))

/-- A model client that asks for the listing of the current directory on its
first call, answers with a text on the second, and fails afterwards. -/
def scriptedClient : ModelClient :=
  fun n _ =>
    match n with
    | 0 => .ok [.text (bytes "Let me look."), .toolUse (bytes "tu_1") (bytes "list_files") (.valid (.obj []))]
    | 1 => .ok [.text (bytes "There are two entries.")]
    | _ => .error (.plain (bytes "connection refused"))

/-- A scanner with one line of input, then a clean end. -/
def oneLineScanner : Scanner :=
  { lines := [(bytes "list files in .")], failure := none, text := [], err := none }

/-! # Theorems -/

/-! ## The tool catalog -/

/-- C6: the names of the tools are constants that do not depend on the state
of the tool (`read_file` for every `ReadFileTool`, `list_files` for every
`ListFilesTool`), and the names of the list `agentTools` registered in `main`
are pairwise different. -/
theorem C6_tool_names_constant_and_distinct (fs : FileSystem) :
    (∀ t : ReadFileTool, t.Name = (bytes "read_file")) ∧
    (∀ t : ListFilesTool, t.Name = (bytes "list_files")) ∧
    (agentTools fs).map ToolDefinition.Name = [(bytes "read_file"), (bytes "list_files")] ∧
    ((agentTools fs).map ToolDefinition.Name).Nodup := by
  refine ⟨fun _ => rfl, fun _ => rfl, rfl, ?_⟩
  show [(bytes "read_file"), (bytes "list_files")].Nodup
  decide

/-! ## `main` -/

/-- C2, as amended: whatever `Run` does, `main` ends with exit status 0.  When
`Run` returns an error, `main` writes the one line `Error: ` followed by the
message after the output of the run; when `Run` returns `nil` it writes
nothing of its own. -/
theorem C2_main_reports_and_exits_zero
    (Run : Agent Scanner → Scanner → Str × Option GoError) (client : ModelClient)
    (fs : FileSystem) (stdin : Scanner) :
    (main Run client fs stdin).exitStatus = 0 ∧
    (∀ err, (Run (Agent.New client getUserMessage (agentTools fs)) stdin).2 = some err →
      (main Run client fs stdin).stdout =
        (Run (Agent.New client getUserMessage (agentTools fs)) stdin).1 ++
          ((bytes "Error: ") ++ err.Error ++ [10])) ∧
    ((Run (Agent.New client getUserMessage (agentTools fs)) stdin).2 = none →
      (main Run client fs stdin).stdout =
        (Run (Agent.New client getUserMessage (agentTools fs)) stdin).1) := by
  cases h : (Run (Agent.New client getUserMessage (agentTools fs)) stdin).2 with
  | none => simp [main, h]
  | some e => simp [main, h]

/-- C2, counterexample: a run that returns an error leaves a process whose
exit status is not different from zero. -/
theorem C2_failed_run_exits_zero :
    (failingRun (Agent.New downClient getUserMessage (agentTools sampleFS)) endedScanner).2 ≠ none ∧
    ¬ ((main failingRun downClient sampleFS endedScanner).exitStatus ≠ 0) := by
  constructor
  · simp [failingRun]
  · simp [main, failingRun]

/-- C3, as amended: `getUserMessage` returns the next line and `true` while
lines are left, and the empty string and `false` once none is left, whether
the input ended or a read failed: its result does not depend on how the
stream ends. -/
theorem C3_getUserMessage_ignores_read_failure (s : Scanner) :
    (getUserMessage s).1 =
      (match s.lines with
       | line :: _ => (line, true)
       | [] => ([], false)) ∧
    ∀ failure, (getUserMessage { s with failure := failure }).1 = (getUserMessage s).1 := by
  cases hl : s.lines with
  | nil => simp [getUserMessage, Scanner.Scan, hl]
  | cons l rest => simp [getUserMessage, Scanner.Scan, Scanner.Text, hl]

/-- C3, counterexample: a scanner that stopped at a failed read and one that
stopped at the end of the input report different errors, and `getUserMessage`
returns the same for both. -/
theorem C3_failed_read_looks_like_end_of_input :
    (failedScanner.Scan).2.Err ≠ none ∧ (endedScanner.Scan).2.Err = none ∧
    (getUserMessage failedScanner).1 = (getUserMessage endedScanner).1 := by
  decide

/-! ## `GenerateSchema` -/

/-- C7, the code at the failing input: for every struct type the reflected
schema forbids additional properties and the parameter `GenerateSchema`
returns carries the properties of that schema and nothing else, so it does
not forbid them. -/
theorem C7_generated_schema_drops_constraint (T : StructType) :
    (Reflector.Reflect { AllowAdditionalProperties := false, DoNotReference := true } T).additionalProperties
      = some false ∧
    (GenerateSchema T).Properties =
      (Reflector.Reflect { AllowAdditionalProperties := false, DoNotReference := true } T).properties ∧
    (GenerateSchema T).ExtraFields = [] ∧
    (GenerateSchema T).disallowsAdditional = false := by
  simp [GenerateSchema, Reflector.Reflect, ToolInputSchemaParam.disallowsAdditional]

/-! ## `read_file` -/

/-- C4: `ReadFileTool.Execute` returns an error exactly when the input does
not decode into `ReadFileInput` or reading the file at the decoded path
fails; otherwise the error is `nil` and the output is the content of the file
at the decoded path. -/
theorem C4_read_file_error_iff (t : ReadFileTool) (fs : FileSystem) (input : RawMessage) :
    ((t.Execute fs input).2 ≠ none ↔
      ((ReadFileInput.unmarshal input).2 ≠ none ∨
        ∃ err, fs.readFile (ReadFileInput.unmarshal input).1.Path = .error err)) ∧
    ((t.Execute fs input).2 = none →
      (ReadFileInput.unmarshal input).2 = none ∧
      fs.readFile (ReadFileInput.unmarshal input).1.Path = .ok (t.Execute fs input).1) := by
  unfold ReadFileTool.Execute
  rcases hd : ReadFileInput.unmarshal input with ⟨d, _ | e⟩
  · cases hr : fs.readFile d.Path with
    | error err => simp [hr]
    | ok content => simp [hr]
  · simp

/-! ## `list_files`: decoding the input, errors -/

/-- Members that leave the field alone: with no matching key, or with matching
keys that all hold the empty string, the decoded field is empty and there is
no error. -/
theorem decodeMembers_empty (struct jsonName : Str) (members : List (Str × Json))
    (h : ∀ kv ∈ members, keyMatches jsonName kv.1 = true → kv.2 = .str []) :
    decodeMembers struct jsonName members [] none = ([], none) := by
  induction members with
  | nil => rfl
  | cons kv rest ih =>
    obtain ⟨key, v⟩ := kv
    have hrest : ∀ kv ∈ rest, keyMatches jsonName kv.1 = true → kv.2 = .str [] :=
      fun kv hkv => h kv (List.mem_cons_of_mem _ hkv)
    by_cases hk : keyMatches jsonName key = true
    · have hv : v = .str [] := h (key, v) (List.mem_cons_self _ _) hk
      subst hv
      simp [decodeMembers, hk, storeString, saveError, ih hrest]
    · simp [decodeMembers, hk, ih hrest]

/-- C5: on an object whose `path` member is absent or holds the empty string
(every member whose key selects the field `path` holds the empty string),
`ListFilesTool.Execute` returns the output and the error it returns on the
object with the one member `path` set to `.`, in every file system. -/
theorem C5_list_files_defaults_to_current_dir (t : ListFilesTool) (fs : FileSystem)
    (members : List (Str × Json))
    (h : ∀ kv ∈ members, keyMatches (bytes "path") kv.1 = true → kv.2 = .str []) :
    t.Execute fs (.valid (.obj members)) = t.Execute fs (pathInput [46]) := by
  have h1 : ListFilesInput.unmarshal (.valid (.obj members)) = ({ Path := [] }, none) := by
    simp [ListFilesInput.unmarshal, unmarshalStringStruct, decodeMembers_empty _ _ members h]
  have h2 : ListFilesInput.unmarshal (pathInput [46]) = ({ Path := [46] }, none) := by
    decide
  simp [ListFilesTool.Execute, h1, h2]

/-- C5, witness: the empty object and the object with an empty `path`. -/
theorem C5_list_files_defaults_witness :
    NewListFilesTool.Execute sampleFS (.valid (.obj [])) =
      NewListFilesTool.Execute sampleFS (pathInput [46]) ∧
    NewListFilesTool.Execute sampleFS (pathInput []) =
      NewListFilesTool.Execute sampleFS (pathInput [46]) :=
  ⟨C5_list_files_defaults_to_current_dir NewListFilesTool sampleFS [] (by simp),
   C5_list_files_defaults_to_current_dir NewListFilesTool sampleFS [((bytes "path"), .str [])]
     (by simp)⟩

/-- C10: whenever `Execute` of either tool returns an error, its output is the
empty string. -/
theorem C10_error_means_empty_output (r : ReadFileTool) (l : ListFilesTool) (fs : FileSystem)
    (input : RawMessage) :
    ((r.Execute fs input).2 ≠ none → (r.Execute fs input).1 = []) ∧
    ((l.Execute fs input).2 ≠ none → (l.Execute fs input).1 = []) := by
  constructor
  · unfold ReadFileTool.Execute
    rcases ReadFileInput.unmarshal input with ⟨d, _ | e⟩
    · cases h : fs.readFile d.Path <;> simp [h]
    · simp
  · unfold ListFilesTool.Execute
    rcases ListFilesInput.unmarshal input with ⟨d, _ | e⟩
    · simp only []
      rcases Walk fs (if d.Path ≠ [] then d.Path else [46])
        (ListFilesTool.walkFunc (if d.Path ≠ [] then d.Path else [46])) none with ⟨files, _ | e⟩
      · cases files <;> simp [Marshal]
      · simp
    · simp

/-- C10, witness: in the directory `mixed` the walk has collected `a.txt` when
it fails at the unreadable directory `locked`; `Execute` returns the error
and the empty string. -/
theorem C10_no_listing_after_failed_walk :
    Walk sampleFS (bytes "mixed") (ListFilesTool.walkFunc (bytes "mixed")) none =
      (some [(bytes "a.txt")], some (permissionDenied (bytes "mixed/locked"))) ∧
    NewListFilesTool.Execute sampleFS (pathInput (bytes "mixed")) =
      ([], some (permissionDenied (bytes "mixed/locked"))) ∧
    (NewListFilesTool.Execute sampleFS (pathInput (bytes "mixed"))).1 = [] :=
  ⟨by decide, by decide,
   (C10_error_means_empty_output NewReadFileTool NewListFilesTool sampleFS
      (pathInput (bytes "mixed"))).2 (by decide)⟩

/-- C1, the code at the failing input: on a directory without entries the
walk appends nothing, the slice `files` is still `nil`, and `Execute`
returns the text `null` with a `nil` error, which does not start with an
opening bracket. -/
theorem C1_empty_directory_yields_null :
    sampleFS.lstat (bytes "empty") = .ok (.dir none []) ∧
    NewListFilesTool.Execute sampleFS (pathInput (bytes "empty")) = ((bytes "null"), none) ∧
    (NewListFilesTool.Execute sampleFS (pathInput (bytes "empty"))).1.head? ≠ some 91 ∧
    (NewListFilesTool.Execute sampleFS (pathInput (bytes "empty"))).1 ≠ (bytes "[]") :=
  ⟨rfl, by decide, by decide, by decide⟩

/-! ## `path/filepath`: facts about `Clean`, `Join` and `Rel` -/

theorem validName_iff (n : Str) :
    validName n = true ↔ n ≠ [] ∧ 47 ∉ n ∧ n ≠ [46] ∧ n ≠ dotdot := by
  simp [validName]

theorem splitSep_ne_nil (s : Str) : splitSep s ≠ [] := by
  cases s with
  | nil => simp [splitSep]
  | cons c rest => by_cases h : c = 47 <;> simp [splitSep, h]

theorem splitSep_cons_sep (s : Str) : splitSep (47 :: s) = [] :: splitSep s := by
  simp [splitSep]

theorem splitSep_cons_other (c : Nat) (s : Str) (h : c ≠ 47) :
    splitSep (c :: s) = (c :: (splitSep s).headD []) :: (splitSep s).tail := by
  simp [splitSep, h]

/-- A string without separator is its only element. -/
theorem splitSep_of_no_sep (n : Str) (h : 47 ∉ n) : splitSep n = [n] := by
  induction n with
  | nil => rfl
  | cons c rest ih =>
    have hc : c ≠ 47 := fun hc => h (by simp [hc])
    have hr : 47 ∉ rest := fun hr => h (List.mem_cons_of_mem _ hr)
    rw [splitSep_cons_other c rest hc, ih hr]
    rfl

/-- Splitting distributes over a separator. -/
theorem splitSep_append_sep (a b : Str) :
    splitSep (a ++ 47 :: b) = splitSep a ++ splitSep b := by
  induction a with
  | nil => simp [splitSep]
  | cons c rest ih =>
    by_cases hc : c = 47
    · subst hc
      simp [splitSep_cons_sep, ih]
    · rw [List.cons_append, splitSep_cons_other c _ hc, splitSep_cons_other c _ hc, ih]
      cases hs : splitSep rest with
      | nil => exact absurd hs (splitSep_ne_nil rest)
      | cons e es => simp

/-- No element of a split holds a separator. -/
theorem splitSep_no_sep (s : Str) : ∀ e ∈ splitSep s, 47 ∉ e := by
  induction s with
  | nil => simp [splitSep]
  | cons c rest ih =>
    by_cases hc : c = 47
    · subst hc
      intro e he
      rw [splitSep_cons_sep] at he
      rcases List.mem_cons.mp he with rfl | he
      · simp
      · exact ih e he
    · intro e he
      rw [splitSep_cons_other c rest hc] at he
      cases hs : splitSep rest with
      | nil => exact absurd hs (splitSep_ne_nil rest)
      | cons e0 es =>
        rw [hs] at he ih
        rcases List.mem_cons.mp he with rfl | he
        · intro hmem
          rcases List.mem_cons.mp hmem with h1 | h1
          · exact hc h1.symm
          · exact ih e0 (List.mem_cons_self _ _) h1
        · exact ih e (List.mem_cons_of_mem _ he)

theorem joinSep_cons_cons (e f : Str) (es : List Str) :
    joinSep (e :: f :: es) = e ++ 47 :: joinSep (f :: es) := rfl

/-- Splitting a joined list of separator-free elements gives the list back. -/
theorem splitSep_joinSep (es : List Str) (hne : es ≠ []) (h : ∀ e ∈ es, 47 ∉ e) :
    splitSep (joinSep es) = es := by
  induction es with
  | nil => exact absurd rfl hne
  | cons e rest ih =>
    cases rest with
    | nil => exact splitSep_of_no_sep e (h e (List.mem_cons_self _ _))
    | cons f fs =>
      rw [joinSep_cons_cons, splitSep_append_sep,
        splitSep_of_no_sep e (h e (List.mem_cons_self _ _)),
        ih (by simp) (fun x hx => h x (List.mem_cons_of_mem _ hx))]
      rfl

theorem dotdot_not_valid : validName dotdot = false := by decide

theorem cleanStep_name (rooted : Bool) (out : List Str) (n : Str) (h : validName n = true) :
    cleanStep rooted out n = n :: out := by
  obtain ⟨h1, _, h3, h4⟩ := (validName_iff n).mp h
  simp [cleanStep, h1, h3, h4]

theorem cleanStep_skip_empty (rooted : Bool) (out : List Str) :
    cleanStep rooted out [] = out := by
  simp [cleanStep]

/-- Reading names writes them, the last one first. -/
theorem foldl_cleanStep_names (rooted : Bool) (names : List Str)
    (h : ∀ n ∈ names, validName n = true) (out : List Str) :
    names.foldl (cleanStep rooted) out = names.reverse ++ out := by
  induction names generalizing out with
  | nil => rfl
  | cons n rest ih =>
    rw [List.foldl_cons, cleanStep_name rooted out n (h n (List.mem_cons_self _ _)),
      ih (fun x hx => h x (List.mem_cons_of_mem _ hx))]
    simp

/-- Reading `..` elements of a relative path on top of `..` elements writes
them. -/
theorem foldl_cleanStep_dotdots (j k : Nat) :
    (List.replicate k dotdot).foldl (cleanStep false) (List.replicate j dotdot) =
      List.replicate (j + k) dotdot := by
  induction k generalizing j with
  | zero => rfl
  | succ k ih =>
    have hstep : cleanStep false (List.replicate j dotdot) dotdot = List.replicate (j + 1) dotdot := by
      cases j with
      | zero => decide
      | succ j =>
        have : cleanStep false (dotdot :: List.replicate j dotdot) dotdot
            = dotdot :: dotdot :: List.replicate j dotdot := by
          simp [cleanStep, dotdot]
        simpa [List.replicate_succ] using this
    rw [List.replicate_succ, List.foldl_cons, hstep, ih]
    congr 1
    omega

/-- Cleaning the elements of a path in normal form writes them all. -/
theorem foldl_cleanStep_canon (rooted : Bool) (elems : List Str) (h : Canon rooted elems) :
    elems.foldl (cleanStep rooted) [] = elems.reverse := by
  obtain ⟨k, names, rfl, hk, hn⟩ := h
  cases rooted with
  | true =>
    have : k = 0 := hk rfl
    subst this
    simpa using foldl_cleanStep_names true names hn []
  | false =>
    rw [List.foldl_append]
    have := foldl_cleanStep_dotdots 0 k
    simp only [List.replicate_zero, Nat.zero_add] at this
    rw [this, foldl_cleanStep_names false names hn]
    simp

/-- One round of `Clean` keeps the written elements in normal form. -/
theorem cleanStep_canon (rooted : Bool) (out : List Str) (e : Str) (he : 47 ∉ e)
    (h : Canon rooted out.reverse) : Canon rooted (cleanStep rooted out e).reverse := by
  by_cases h1 : e = [] ∨ e = [46]
  · simpa [cleanStep, h1] using h
  by_cases h2 : e = dotdot
  · subst h2
    obtain ⟨k, names, hrev, hk, hn⟩ := h
    cases out with
    | nil =>
      cases rooted with
      | true => exact ⟨0, [], by simp [cleanStep, dotdot], fun _ => rfl, by simp⟩
      | false => exact ⟨1, [], by simp [cleanStep, dotdot], by simp, by simp⟩
    | cons last before =>
      have hrev2 : before.reverse ++ [last] = List.replicate k dotdot ++ names := by
        simpa using hrev
      by_cases hl : last = dotdot
      · subst hl
        cases rooted with
        | true =>
          have hstep : cleanStep true (dotdot :: before) dotdot = dotdot :: before := by
            simp [cleanStep, dotdot]
          rw [hstep]
          exact ⟨k, names, hrev, hk, hn⟩
        | false =>
          have hstep : cleanStep false (dotdot :: before) dotdot = dotdot :: dotdot :: before := by
            simp [cleanStep, dotdot]
          rw [hstep]
          have hnames : names = [] := by
            rcases List.eq_nil_or_concat names with hnil | ⟨init, x, hx⟩
            · exact hnil
            · exfalso
              rw [hx, List.concat_eq_append, ← List.append_assoc] at hrev2
              have hlast := List.append_inj_right' hrev2 rfl
              have hx2 : x = dotdot := by simpa using hlast.symm
              have hv := hn x (by simp [hx])
              rw [hx2, dotdot_not_valid] at hv
              exact Bool.noConfusion hv
          subst hnames
          refine ⟨k + 1, [], ?_, by simp, by simp⟩
          have : (dotdot :: before).reverse = List.replicate k dotdot := by simpa using hrev
          simp only [List.reverse_cons, List.append_nil] at this ⊢
          rw [this, List.replicate_succ']
      · have hstep : cleanStep rooted (last :: before) dotdot = before := by
          simp [cleanStep, hl, dotdot] at *
          intro hcon
          exact absurd hcon hl
        rw [hstep]
        rcases List.eq_nil_or_concat names with hnil | ⟨init, x, hx⟩
        · subst hnil
          exfalso
          rw [List.append_nil] at hrev2
          have hmem : last ∈ List.replicate k dotdot := by
            rw [← hrev2]
            simp
          exact hl (List.eq_of_mem_replicate hmem)
        · rw [hx, List.concat_eq_append, ← List.append_assoc] at hrev2
          have hinit := List.append_inj_left' hrev2 rfl
          exact ⟨k, init, hinit, hk, fun n hmem => hn n (by simp [hx, hmem])⟩
  · have hv : validName e = true := by
      rw [validName_iff]
      push_neg at h1
      exact ⟨h1.1, he, h1.2, h2⟩
    rw [cleanStep_name rooted out e hv]
    obtain ⟨k, names, hrev, hk, hn⟩ := h
    refine ⟨k, names ++ [e], ?_, hk, ?_⟩
    · simp [hrev]
    · intro n hmem
      rcases List.mem_append.mp hmem with hm | hm
      · exact hn n hm
      · simp at hm
        subst hm
        exact hv

/-- Cleaning separator-free elements keeps the normal form. -/
theorem foldl_cleanStep_keeps_canon (rooted : Bool) (es : List Str) (hes : ∀ e ∈ es, 47 ∉ e)
    (out : List Str) (h : Canon rooted out.reverse) :
    Canon rooted (es.foldl (cleanStep rooted) out).reverse := by
  induction es generalizing out with
  | nil => exact h
  | cons e rest ih =>
    rw [List.foldl_cons]
    exact ih (fun x hx => hes x (List.mem_cons_of_mem _ hx)) _
      (cleanStep_canon rooted out e (hes e (List.mem_cons_self _ _)) h)

/-- The elements `Clean` keeps are in normal form. -/
theorem cleanPath_canon (path : Str) : Canon (cleanPath path).rooted (cleanPath path).elems := by
  unfold cleanPath
  exact foldl_cleanStep_keeps_canon _ _ (splitSep_no_sep path) []
    ⟨0, [], by simp, fun _ => rfl, by simp⟩

/-- The elements of a normal form are not empty and hold no separator. -/
theorem Canon.elem_ok {rooted : Bool} {elems : List Str} (h : Canon rooted elems) :
    ∀ e ∈ elems, e ≠ [] ∧ 47 ∉ e := by
  obtain ⟨k, names, rfl, _, hn⟩ := h
  intro e he
  rcases List.mem_append.mp he with h1 | h1
  · have := List.eq_of_mem_replicate h1
    subst this
    decide
  · obtain ⟨h1, h2, _, _⟩ := (validName_iff e).mp (hn e h1)
    exact ⟨h1, h2⟩

/-- A name added to a normal form gives a normal form. -/
theorem Canon.snoc {rooted : Bool} {elems : List Str} (h : Canon rooted elems) (n : Str)
    (hn : validName n = true) : Canon rooted (elems ++ [n]) := by
  obtain ⟨k, names, rfl, hk, hns⟩ := h
  refine ⟨k, names ++ [n], by simp, hk, ?_⟩
  intro x hx
  rcases List.mem_append.mp hx with h1 | h1
  · exact hns x h1
  · simp at h1
    subst h1
    exact hn

/-- Names added to a normal form give a normal form. -/
theorem Canon.append {rooted : Bool} {elems : List Str} (h : Canon rooted elems)
    (names : List Str) (hn : ∀ n ∈ names, validName n = true) : Canon rooted (elems ++ names) := by
  obtain ⟨k, names0, rfl, hk, hns⟩ := h
  refine ⟨k, names0 ++ names, by simp, hk, ?_⟩
  intro x hx
  rcases List.mem_append.mp hx with h1 | h1
  · exact hns x h1
  · exact hn x h1

theorem joinSep_head (e : Str) (es : List Str) (he : e ≠ []) :
    (joinSep (e :: es)).head? = e.head? := by
  cases e with
  | nil => exact absurd rfl he
  | cons c cs =>
    cases es with
    | nil => rfl
    | cons f fs => rfl

theorem render_rooted (elems : List Str) :
    CleanPath.render { rooted := true, elems := elems } = 47 :: joinSep elems := by
  simp [CleanPath.render]

theorem render_relative_nil :
    CleanPath.render { rooted := false, elems := [] } = [46] := by
  simp [CleanPath.render]

theorem render_relative (elems : List Str) (h : elems ≠ []) :
    CleanPath.render { rooted := false, elems := elems } = joinSep elems := by
  simp [CleanPath.render, h]

theorem joinSep_ne_nil (e : Str) (es : List Str) (he : e ≠ []) : joinSep (e :: es) ≠ [] := by
  intro h
  have := joinSep_head e es he
  rw [h] at this
  cases e with
  | nil => exact he rfl
  | cons c cs => simp at this

/-- A rendered path is never the empty string. -/
theorem render_ne_nil (rooted : Bool) (elems : List Str) (h : Canon rooted elems) :
    CleanPath.render { rooted := rooted, elems := elems } ≠ [] := by
  cases rooted with
  | true => simp [render_rooted]
  | false =>
    cases elems with
    | nil => simp [render_relative_nil]
    | cons e es =>
      rw [render_relative _ (by simp)]
      exact joinSep_ne_nil e es (h.elem_ok e (List.mem_cons_self _ _)).1

/-- A rendered path starts with a separator exactly when it is rooted. -/
theorem render_head (rooted : Bool) (elems : List Str) (h : Canon rooted elems) :
    decide ((CleanPath.render { rooted := rooted, elems := elems }).head? = some 47) = rooted := by
  cases rooted with
  | true => simp [render_rooted]
  | false =>
    cases elems with
    | nil => simp [render_relative_nil]
    | cons e es =>
      rw [render_relative _ (by simp), joinSep_head e es (h.elem_ok e (List.mem_cons_self _ _)).1]
      have hne := (h.elem_ok e (List.mem_cons_self _ _)).1
      have hns := (h.elem_ok e (List.mem_cons_self _ _)).2
      cases e with
      | nil => exact absurd rfl hne
      | cons c cs =>
        have : c ≠ 47 := fun hc => hns (by simp [hc])
        simp [this]

/-- The function `cleanPath` is the identity on rendered normal forms: `Clean`
is idempotent. -/
theorem cleanPath_render (rooted : Bool) (elems : List Str) (h : Canon rooted elems) :
    cleanPath (CleanPath.render { rooted := rooted, elems := elems }) =
      { rooted := rooted, elems := elems } := by
  have hhead := render_head rooted elems h
  unfold cleanPath
  simp only [hhead]
  congr 1
  have hsep : ∀ e ∈ elems, 47 ∉ e := fun e he => (h.elem_ok e he).2
  cases rooted with
  | true =>
    rw [render_rooted, splitSep_cons_sep, List.foldl_cons, cleanStep_skip_empty]
    cases elems with
    | nil => simp [joinSep, splitSep, cleanStep]
    | cons e es =>
      rw [splitSep_joinSep _ (by simp) hsep, foldl_cleanStep_canon true _ h]
      simp
  | false =>
    cases elems with
    | nil => simp [render_relative_nil, splitSep, cleanStep]
    | cons e es =>
      rw [render_relative _ (by simp), splitSep_joinSep _ (by simp) hsep,
        foldl_cleanStep_canon false _ h]
      simp

/-- Rendering is injective on normal forms. -/
theorem render_injective (rooted : Bool) (es fs : List Str) (hes : Canon rooted es)
    (hfs : Canon rooted fs)
    (h : CleanPath.render { rooted := rooted, elems := es } =
      CleanPath.render { rooted := rooted, elems := fs }) : es = fs := by
  have h1 := cleanPath_render rooted es hes
  have h2 := cleanPath_render rooted fs hfs
  rw [h, h2] at h1
  exact (congrArg CleanPath.elems h1).symm

/-- Cleaning a path extended by a name adds the name to the kept elements. -/
theorem cleanPath_append_name (p n : Str) (hp : p ≠ []) (hn : validName n = true) :
    cleanPath (p ++ 47 :: n) =
      { rooted := (cleanPath p).rooted, elems := (cleanPath p).elems ++ [n] } := by
  obtain ⟨_, hsep, _, _⟩ := (validName_iff n).mp hn
  have hhead : (p ++ 47 :: n).head? = p.head? := by
    cases p with
    | nil => exact absurd rfl hp
    | cons c cs => rfl
  unfold cleanPath
  simp only [hhead, splitSep_append_sep, splitSep_of_no_sep n hsep, List.foldl_append,
    List.foldl_cons, List.foldl_nil]
  rw [cleanStep_name _ _ n hn]
  simp

theorem Join_pair (p n : Str) (hp : p ≠ []) : Join [p, n] = Clean (p ++ 47 :: n) := by
  simp [Join, List.dropWhile, hp, joinSep]

theorem Clean_of_ne_nil (p : Str) (hp : p ≠ []) : Clean p = (cleanPath p).render := by
  simp [Clean, hp]

/-- Joining a name to a path whose cleaned form is known: the result is the
rendered form with the name added, it is not empty, and cleaning it again
changes nothing. -/
theorem Join_name (p n : Str) (hp : p ≠ []) (hn : validName n = true) :
    Join [p, n] ≠ [] ∧
    cleanPath (Join [p, n]) =
      { rooted := (cleanPath p).rooted, elems := (cleanPath p).elems ++ [n] } := by
  have hcanon : Canon (cleanPath p).rooted ((cleanPath p).elems ++ [n]) :=
    (cleanPath_canon p).snoc n hn
  rw [Join_pair p n hp, Clean_of_ne_nil _ (by simp), cleanPath_append_name p n hp hn]
  exact ⟨render_ne_nil _ _ hcanon, cleanPath_render _ _ hcanon⟩

/-- The scan of `Rel` over a base and a target that extends it passes over the
whole base. -/
theorem relScan_extension (xs ys : List Str) : relScan xs (xs ++ ys) = ([], ys) := by
  induction xs with
  | nil => cases ys <;> rfl
  | cons x rest ih => simp [relScan, ih]

/-- The elements `Rel` scans in a rendered path that is not the bare root or
the bare `.`: an empty element for the root, then the kept elements. -/
theorem relElems_render (rooted : Bool) (elems : List Str) (h : Canon rooted elems)
    (hne : elems ≠ []) :
    relElems (CleanPath.render { rooted := rooted, elems := elems }) =
      (if rooted then [[]] else []) ++ elems := by
  have hsep : ∀ e ∈ elems, 47 ∉ e := fun e he => (h.elem_ok e he).2
  have hlast : elems.getLast? ≠ some [] := by
    intro hl
    have hmem : ([] : Str) ∈ elems := List.mem_of_getLast?_eq_some hl
    exact (h.elem_ok [] hmem).1 rfl
  cases rooted with
  | true =>
    rw [render_rooted]
    unfold relElems
    rw [splitSep_cons_sep, splitSep_joinSep _ hne hsep]
    have : ([] :: elems).getLast? = elems.getLast? := by
      cases elems with
      | nil => exact absurd rfl hne
      | cons e es => simp [List.getLast?_cons_cons]
    rw [this]
    simp [hlast]
  | false =>
    rw [render_relative _ hne]
    unfold relElems
    rw [splitSep_joinSep _ hne hsep]
    simp [hlast]

/-- The elements `Rel` scans in the base, once a bare `.` has been replaced by
the empty string. -/
theorem relElems_base (rooted : Bool) (elems : List Str) (h : Canon rooted elems) :
    relElems (if CleanPath.render { rooted := rooted, elems := elems } = [46] then []
      else CleanPath.render { rooted := rooted, elems := elems }) =
      (if rooted then [[]] else []) ++ elems := by
  cases elems with
  | nil =>
    cases rooted with
    | true => decide
    | false => decide
  | cons e es =>
    have hne : CleanPath.render { rooted := rooted, elems := e :: es } ≠ [46] := by
      intro hdot
      have h0 : Canon rooted [] := ⟨0, [], rfl, fun _ => rfl, by simp⟩
      cases rooted with
      | true => simp [render_rooted] at hdot
      | false =>
        rw [← render_relative_nil] at hdot
        exact absurd (render_injective false _ _ h h0 hdot) (by simp)
    rw [if_neg hne]
    exact relElems_render rooted _ h (by simp)

/-- Whether the base of `Rel` starts with a separator, once a bare `.` has
been replaced by the empty string. -/
theorem base_head (rooted : Bool) (elems : List Str) (h : Canon rooted elems) :
    decide ((if CleanPath.render { rooted := rooted, elems := elems } = [46] then []
      else CleanPath.render { rooted := rooted, elems := elems }).head? = some 47) = rooted := by
  by_cases hdot : CleanPath.render { rooted := rooted, elems := elems } = [46]
  · rw [if_pos hdot]
    have := render_head rooted elems h
    rw [hdot] at this
    rw [← this]
    decide
  · rw [if_neg hdot]
    exact render_head rooted elems h

/-- The relative path of a path below the base: when the cleaned target is the
cleaned base extended by the names `rel`, `Rel` returns `.` for no names and
the joined names otherwise. -/
theorem Rel_below (dir path : Str) (rel : List Str) (hd : dir ≠ []) (hp : path ≠ [])
    (hrel : ∀ n ∈ rel, validName n = true)
    (hc : cleanPath path =
      { rooted := (cleanPath dir).rooted, elems := (cleanPath dir).elems ++ rel }) :
    Rel dir path = .ok (if rel = [] then [46] else joinSep rel) := by
  have hcd := cleanPath_canon dir
  have hct : Canon (cleanPath dir).rooted ((cleanPath dir).elems ++ rel) := hcd.append rel hrel
  unfold Rel
  rw [Clean_of_ne_nil dir hd, Clean_of_ne_nil path hp, hc]
  by_cases hnil : rel = []
  · subst hnil
    simp
  · have hne : CleanPath.render
        { rooted := (cleanPath dir).rooted, elems := (cleanPath dir).elems ++ rel } ≠
        (cleanPath dir).render := by
      intro heq
      have := render_injective _ _ _ hct hcd heq
      exact hnil (by simpa using this)
    simp only [if_neg hne, if_neg hnil]
    rw [base_head _ _ hcd, base_head _ _ hct]
    rw [relElems_base _ _ hcd, relElems_base _ _ hct]
    rw [← List.append_assoc, relScan_extension]
    simp [hnil]

/-! ## `list_files`: what the walk collects -/

theorem Slice.appendAll_nil {α : Type} (s : Slice α) : s.appendAll [] = s := rfl

theorem Slice.appendAll_cons {α : Type} (s : Slice α) (x : α) (l : List α) :
    s.appendAll (x :: l) = (s.append x).appendAll l := rfl

theorem Slice.appendAll_append {α : Type} (s : Slice α) (l m : List α) :
    s.appendAll (l ++ m) = (s.appendAll l).appendAll m := by
  simp [Slice.appendAll, List.foldl_append]

theorem Slice.toList_append {α : Type} (s : Slice α) (x : α) :
    (s.append x).toList = s.toList ++ [x] := by
  cases s <;> rfl

theorem Slice.toList_appendAll {α : Type} (s : Slice α) (l : List α) :
    (s.appendAll l).toList = s.toList ++ l := by
  induction l generalizing s with
  | nil => simp [Slice.appendAll_nil]
  | cons x rest ih => rw [Slice.appendAll_cons, ih, Slice.toList_append]; simp

/-- The relative path of an item below the root is not `.`. -/
theorem joinSep_names_ne_dot (rel : List Str) (hne : rel ≠ [])
    (hrel : ∀ n ∈ rel, validName n = true) : joinSep rel ≠ [46] := by
  cases rel with
  | nil => exact absurd rfl hne
  | cons n rest =>
    cases rest with
    | nil =>
      obtain ⟨_, _, h3, _⟩ := (validName_iff n).mp (hrel n (List.mem_cons_self _ _))
      exact h3
    | cons m ms =>
      intro h
      rw [joinSep_cons_cons] at h
      have hlen := congrArg List.length h
      obtain ⟨h1, _, _, _⟩ := (validName_iff n).mp (hrel n (List.mem_cons_self _ _))
      have : 0 < n.length := List.length_pos.mpr h1
      simp at hlen
      omega

/-- The walk function on a node without error: the node's own entry is
appended, unless the node is the root. -/
theorem walkFunc_ok (dir path : Str) (rel : List Str) (isDir : Bool) (files : Slice Str)
    (hd : dir ≠ []) (hp : path ≠ []) (hrel : ∀ n ∈ rel, validName n = true)
    (hc : cleanPath path =
      { rooted := (cleanPath dir).rooted, elems := (cleanPath dir).elems ++ rel }) :
    ListFilesTool.walkFunc dir files path (some { isDir := isDir }) none =
      (files.appendAll (if rel = [] then [] else [entryOf (rel, isDir)]), none) := by
  unfold ListFilesTool.walkFunc
  simp only [Rel_below dir path rel hd hp hrel hc]
  by_cases hnil : rel = []
  · simp [hnil, Slice.appendAll_nil]
  · have hdot := joinSep_names_ne_dot rel hnil hrel
    cases isDir <;> simp [hnil, hdot, entryOf, Slice.appendAll, Slice.append]

/-- The walk function passes an error on and appends nothing. -/
theorem walkFunc_err (dir path : Str) (info : Option FileInfo) (e : GoError)
    (files : Slice Str) :
    ListFilesTool.walkFunc dir files path info (some e) = (files, some e) := rfl

theorem walkEntries_cons {σ : Type} (walkFn : WalkFunc σ) (path name : Str) (child : Node)
    (rest : List (Str × Node)) (s : σ) :
    walkEntries walkFn path ((name, child) :: rest) s =
      (match (walk walkFn (Join [path, name]) child s).2 with
        | some err => ((walk walkFn (Join [path, name]) child s).1, some err)
        | none => walkEntries walkFn path rest (walk walkFn (Join [path, name]) child s).1) := by
  cases child with
  | unstatable err => rw [walkEntries.eq_2, walk]
  | file => rw [walkEntries.eq_3]; intro err h; cases h
  | symlink target => rw [walkEntries.eq_3]; intro err h; cases h
  | dir readErr entries => rw [walkEntries.eq_3]; intro err h; cases h

theorem collects_file (dir : Str) (hd : dir ≠ []) : CollectsNode dir .file := by
  intro path rel files hp hrel hc _ _
  simp only [walk, walkFunc_ok dir path rel false files hd hp hrel hc]
  simp [selfEntry, Node.isDir, Node.itemsBelow]

theorem collects_symlink (dir : Str) (hd : dir ≠ []) (target : Str) :
    CollectsNode dir (.symlink target) := by
  intro path rel files hp hrel hc _ _
  simp only [walk, walkFunc_ok dir path rel false files hd hp hrel hc]
  simp [selfEntry, Node.isDir, Node.itemsBelow]

theorem collects_unstatable (dir : Str) (err : GoError) : CollectsNode dir (.unstatable err) := by
  intro path rel files _ _ _ _ hok
  simp [walk, walkFunc_err] at hok

theorem collects_dir (dir : Str) (hd : dir ≠ []) (readErr : Option GoError)
    (entries : List (Str × Node)) (ih : CollectsEntries dir entries) :
    CollectsNode dir (.dir readErr entries) := by
  intro path rel files hp hrel hc hv hok
  cases readErr with
  | some e => simp [walk, walkFunc_err] at hok
  | none =>
    have hself := walkFunc_ok dir path rel true files hd hp hrel hc
    have hv2 : entriesValid entries = true := by simpa [Node.namesValid] using hv
    have hw : walk (ListFilesTool.walkFunc dir) path (.dir none entries) files =
        walkEntries (ListFilesTool.walkFunc dir) path entries
          (files.appendAll (if rel = [] then [] else [entryOf (rel, true)])) := by
      simp [walk, hself]
    rw [hw] at hok ⊢
    rw [ih path rel _ hp hrel hc hv2 hok, ← Slice.appendAll_append]
    simp [selfEntry, Node.isDir, Node.itemsBelow]

theorem collects_nil (dir : Str) : CollectsEntries dir [] := by
  intro path rel files _ _ _ _ _
  simp [walkEntries, itemsOf, Slice.appendAll_nil]

theorem collects_cons (dir : Str) (name : Str) (child : Node) (rest : List (Str × Node))
    (ihc : CollectsNode dir child) (ihr : CollectsEntries dir rest) :
    CollectsEntries dir ((name, child) :: rest) := by
  intro path rel files hp hrel hc hv hok
  have hv3 : validName name = true ∧ child.namesValid = true ∧ entriesValid rest = true := by
    simpa [entriesValid, Bool.and_eq_true, and_assoc] using hv
  obtain ⟨hname, hchild, hrest⟩ := hv3
  obtain ⟨hfne, hfc⟩ := Join_name path name hp hname
  rw [hc] at hfc
  have hfc2 : cleanPath (Join [path, name]) =
      { rooted := (cleanPath dir).rooted,
        elems := (cleanPath dir).elems ++ (rel ++ [name]) } := by
    simpa [List.append_assoc] using hfc
  have hrel2 : ∀ n ∈ rel ++ [name], validName n = true := by
    intro n hn
    rcases List.mem_append.mp hn with h | h
    · exact hrel n h
    · simp at h
      subst h
      exact hname
  rw [walkEntries_cons] at hok ⊢
  cases hch : (walk (ListFilesTool.walkFunc dir) (Join [path, name]) child files).2 with
  | some err => simp [hch] at hok
  | none =>
    simp only [hch] at hok ⊢
    rw [ihr path rel _ hp hrel hc hrest hok,
      ihc (Join [path, name]) (rel ++ [name]) files hfne hrel2 hfc2 hchild hch,
      ← Slice.appendAll_append]
    congr 1
    have hne : rel ++ [name] ≠ [] := by simp
    simp [itemsOf, selfEntry, hne, List.map_append, Function.comp_def]

/-- What a walk that ends without error has collected below a node: the
node's own entry, then the entries of the items below it, in order. -/
theorem walk_collects (dir : Str) (hd : dir ≠ []) (node : Node) : CollectsNode dir node :=
  Node.rec (motive_1 := CollectsNode dir) (motive_2 := CollectsEntries dir)
    (motive_3 := fun p => CollectsNode dir p.2)
    (collects_file dir hd)
    (fun target => collects_symlink dir hd target)
    (fun readErr entries ih => collects_dir dir hd readErr entries ih)
    (fun err => collects_unstatable dir err)
    (collects_nil dir)
    (fun head tail ihh iht => collects_cons dir head.1 head.2 tail ihh iht)
    (fun _ _ ih => ih)
    node

/-! ## `encoding/json`: what `Marshal` writes reads back -/

theorem decodeStringBody_cons (c : Nat) (rest : Str) :
    decodeStringBody (c :: rest) =
      if c = 34 then some ([], rest)
      else if c = 92 then
        match rest with
        | [] => none
        | e :: rest1 =>
          if e = 117 then
            match rest1 with
            | h1 :: h2 :: h3 :: h4 :: rest2 =>
              match hexValue4 h1 h2 h3 h4 with
              | none => none
              | some n => (decodeStringBody rest2).map fun r => (encodeRune n ++ r.1, r.2)
            | _ => none
          else
            match unescapeByte e with
            | none => none
            | some ch => (decodeStringBody rest1).map fun r => (ch :: r.1, r.2)
      else if c < 32 then none
      else (decodeStringBody rest).map fun r => (c :: r.1, r.2) := by
  rw [decodeStringBody.eq_def]
  rfl

theorem decodeElems_quote (fuel : Nat) (body : Str) :
    decodeElems (fuel + 1) (34 :: body) =
      match decodeStringBody body with
      | some (s, 44 :: rest) => (decodeElems fuel rest).map fun l => s :: l
      | some (s, [93]) => some [s]
      | _ => none := by
  rw [decodeElems.eq_def]

theorem hexValue_hexDigit (k : Nat) (h : k < 16) : hexValue (hexDigit k) = some k := by
  interval_cases k <;> decide

theorem hexValue4_digits (n : Nat) (h : n < 65536) :
    hexValue4 (hexDigit (n / 4096 % 16)) (hexDigit (n / 256 % 16)) (hexDigit (n / 16 % 16))
      (hexDigit (n % 16)) = some n := by
  unfold hexValue4
  rw [hexValue_hexDigit _ (Nat.mod_lt _ (by norm_num)),
    hexValue_hexDigit _ (Nat.mod_lt _ (by norm_num)),
    hexValue_hexDigit _ (Nat.mod_lt _ (by norm_num)),
    hexValue_hexDigit _ (Nat.mod_lt _ (by norm_num))]
  simp only [Option.some.injEq]
  omega

/-- A `\u` escape reads back as the encoding of its code point. -/
theorem decode_unicodeEscape (n : Nat) (h : n < 65536) (rest : Str) :
    decodeStringBody (unicodeEscape n ++ rest) =
      (decodeStringBody rest).map fun r => (encodeRune n ++ r.1, r.2) := by
  simp [unicodeEscape, decodeStringBody_cons, hexValue4_digits n h]

/-- A byte that is no quote, backslash or control character reads back as
itself. -/
theorem decode_plain (b : Nat) (rest : Str) (h1 : b ≠ 34) (h2 : b ≠ 92) (h3 : 32 ≤ b) :
    decodeStringBody (b :: rest) = (decodeStringBody rest).map fun r => (b :: r.1, r.2) := by
  have h4 : ¬ b < 32 := by omega
  simp [decodeStringBody_cons, h1, h2, h4]

/-- Bytes from 0x80 on read back as themselves. -/
theorem decode_high (l : Str) (hl : ∀ b ∈ l, 128 ≤ b) (rest : Str) :
    decodeStringBody (l ++ rest) = (decodeStringBody rest).map fun r => (l ++ r.1, r.2) := by
  induction l with
  | nil => simp
  | cons b bs ih =>
    have hb := hl b (List.mem_cons_self _ _)
    rw [List.cons_append, decode_plain b _ (by omega) (by omega) (by omega),
      ih (fun x hx => hl x (List.mem_cons_of_mem _ hx))]
    cases decodeStringBody rest <;> simp

/-- An escaped byte below 0x80 reads back as the byte. -/
theorem decode_escapeASCII (b : Nat) (hb : b < 128) (rest : Str) :
    decodeStringBody (escapeASCII b ++ rest) =
      (decodeStringBody rest).map fun r => (b :: r.1, r.2) := by
  have henc : encodeRune b = [b] := by simp [encodeRune, hb]
  unfold escapeASCII
  split_ifs with h1 h2 h3 h4 h5 h6 h7
  · rcases h1 with h | h <;> subst h <;> simp [decodeStringBody_cons, unescapeByte]
  · subst h2
    simp [decodeStringBody_cons, unescapeByte]
  · subst h3
    simp [decodeStringBody_cons, unescapeByte]
  · subst h4
    simp [decodeStringBody_cons, unescapeByte]
  · subst h5
    simp [decodeStringBody_cons, unescapeByte]
  · subst h6
    simp [decodeStringBody_cons, unescapeByte]
  · rw [decode_unicodeEscape _ (by omega), henc]
    rfl
  · push_neg at h1 h7
    exact decode_plain b rest h1.1 h1.2 h7.1

/-! ## UTF-8: decoding what was encoded -/

theorem isScalar_iff (r : Nat) : isScalar r = true ↔ r < 0xD800 ∨ (0xDFFF < r ∧ r < 0x110000) := by
  simp [isScalar]

theorem encodeRune_ascii (r : Nat) (h : r < 128) : encodeRune r = [r] := by
  simp [encodeRune, h]

/-- Outside ASCII every byte of an encoding is 0x80 or more. -/
theorem encodeRune_high (r : Nat) (h : 128 ≤ r) : ∀ b ∈ encodeRune r, 128 ≤ b := by
  intro b hb
  unfold encodeRune at hb
  split_ifs at hb <;> simp at hb <;> omega

theorem encodeRune_length (r : Nat) : 1 ≤ (encodeRune r).length ∧ (encodeRune r).length ≤ 4 := by
  unfold encodeRune
  split_ifs <;> simp

theorem leadWidth_two (b : Nat) (h : 194 ≤ b ∧ b ≤ 223) : leadWidth b = 2 := by
  unfold leadWidth
  rw [if_pos h]

theorem leadWidth_three (b : Nat) (h : 224 ≤ b ∧ b ≤ 239) : leadWidth b = 3 := by
  unfold leadWidth
  rw [if_neg (by omega), if_pos h]

theorem leadWidth_four (b : Nat) (h : 240 ≤ b ∧ b ≤ 244) : leadWidth b = 4 := by
  unfold leadWidth
  rw [if_neg (by omega), if_neg (by omega), if_pos h]

theorem acceptLo_le (b0 b1 : Nat) (h : 128 ≤ b1) (h224 : b0 = 224 → 160 ≤ b1)
    (h240 : b0 = 240 → 144 ≤ b1) : ¬ b1 < acceptLo b0 := by
  unfold acceptLo
  split_ifs with h1 h2
  · have := h224 h1
    omega
  · have := h240 h2
    omega
  · omega

theorem le_acceptHi (b0 b1 : Nat) (h : b1 ≤ 191) (h237 : b0 = 237 → b1 ≤ 159)
    (h244 : b0 = 244 → b1 ≤ 143) : ¬ acceptHi b0 < b1 := by
  unfold acceptHi
  split_ifs with h1 h2
  · have := h237 h1
    omega
  · have := h244 h2
    omega
  · omega

theorem isCont_of_range (b : Nat) (h : 128 ≤ b ∧ b ≤ 191) : isCont b = true := by
  simp [isCont, h]

/-- The function `DecodeRune` on a well-formed sequence of two bytes. -/
theorem DecodeRune_two (b0 b1 : Nat) (rest : Str) (h0 : 194 ≤ b0 ∧ b0 ≤ 223)
    (h1 : 128 ≤ b1 ∧ b1 ≤ 191) :
    DecodeRune (b0 :: b1 :: rest) = (b0 % 32 * 64 + b1 % 64, 2) := by
  have hlo := acceptLo_le b0 b1 h1.1 (by omega) (by omega)
  have hhi := le_acceptHi b0 b1 h1.2 (by omega) (by omega)
  have h128 : ¬ b0 < 128 := by omega
  simp [DecodeRune, leadWidth_two b0 h0, hlo, hhi, h128]

/-- The function `DecodeRune` on a well-formed sequence of three bytes. -/
theorem DecodeRune_three (b0 b1 b2 : Nat) (rest : Str) (h0 : 224 ≤ b0 ∧ b0 ≤ 239)
    (h1 : 128 ≤ b1 ∧ b1 ≤ 191) (h224 : b0 = 224 → 160 ≤ b1) (h237 : b0 = 237 → b1 ≤ 159)
    (h2 : 128 ≤ b2 ∧ b2 ≤ 191) :
    DecodeRune (b0 :: b1 :: b2 :: rest) = (b0 % 16 * 4096 + b1 % 64 * 64 + b2 % 64, 3) := by
  have hlo := acceptLo_le b0 b1 h1.1 h224 (by omega)
  have hhi := le_acceptHi b0 b1 h1.2 h237 (by omega)
  have h128 : ¬ b0 < 128 := by omega
  simp [DecodeRune, leadWidth_three b0 h0, hlo, hhi, h128, isCont_of_range b2 h2]

/-- The function `DecodeRune` on a well-formed sequence of four bytes. -/
theorem DecodeRune_four (b0 b1 b2 b3 : Nat) (rest : Str) (h0 : 240 ≤ b0 ∧ b0 ≤ 244)
    (h1 : 128 ≤ b1 ∧ b1 ≤ 191) (h240 : b0 = 240 → 144 ≤ b1) (h244 : b0 = 244 → b1 ≤ 143)
    (h2 : 128 ≤ b2 ∧ b2 ≤ 191) (h3 : 128 ≤ b3 ∧ b3 ≤ 191) :
    DecodeRune (b0 :: b1 :: b2 :: b3 :: rest) =
      (b0 % 8 * 262144 + b1 % 64 * 4096 + b2 % 64 * 64 + b3 % 64, 4) := by
  have hlo := acceptLo_le b0 b1 h1.1 (by omega) h240
  have hhi := le_acceptHi b0 b1 h1.2 (by omega) h244
  have h128 : ¬ b0 < 128 := by omega
  simp [DecodeRune, leadWidth_four b0 h0, hlo, hhi, h128, isCont_of_range b2 h2,
    isCont_of_range b3 h3]

/-- Decoding the encoding of a scalar value outside ASCII gives the value and
the width of the encoding, whatever follows. -/
theorem DecodeRune_encodeRune (r : Nat) (hs : isScalar r = true) (h : 128 ≤ r) (rest : Str) :
    DecodeRune (encodeRune r ++ rest) = (r, (encodeRune r).length) := by
  have hs2 := (isScalar_iff r).mp hs
  have hns : ¬ (isScalar r = false) := by simp [hs]
  unfold encodeRune
  rw [if_neg (by omega)]
  by_cases h2 : r < 0x800
  · rw [if_pos h2]
    simp only [List.cons_append, List.nil_append, List.length_cons, List.length_nil]
    rw [DecodeRune_two _ _ rest (by omega) (by omega)]
    simp only [Prod.mk.injEq, and_true]
    omega
  · rw [if_neg h2, if_neg hns]
    by_cases h3 : r < 0x10000
    · rw [if_pos h3]
      simp only [List.cons_append, List.nil_append, List.length_cons, List.length_nil]
      rw [DecodeRune_three _ _ _ rest (by omega) (by omega) (by omega) (by omega) (by omega)]
      simp only [Prod.mk.injEq, and_true]
      omega
    · rw [if_neg h3]
      simp only [List.cons_append, List.nil_append, List.length_cons, List.length_nil]
      rw [DecodeRune_four _ _ _ _ rest (by omega) (by omega) (by omega) (by omega) (by omega)
        (by omega)]
      simp only [Prod.mk.injEq, and_true]
      omega

/-! ## `encoding/json`: valid UTF-8 is written so that it reads back -/

theorem appendString_nil (fuel : Nat) : appendString fuel [] = [] := by
  cases fuel <;> rfl

theorem appendString_cons (fuel b : Nat) (rest : Str) :
    appendString (fuel + 1) (b :: rest) =
      if b < 0x80 then escapeASCII b ++ appendString fuel rest
      else if (DecodeRune (b :: rest)).1 = 0xFFFD ∧ (DecodeRune (b :: rest)).2 = 1 then
        bytes "\\ufffd" ++ appendString fuel rest
      else if (DecodeRune (b :: rest)).1 = 0x2028 ∨ (DecodeRune (b :: rest)).1 = 0x2029 then
        unicodeEscape (DecodeRune (b :: rest)).1 ++
          appendString fuel (rest.drop ((DecodeRune (b :: rest)).2 - 1))
      else
        (b :: rest).take (DecodeRune (b :: rest)).2 ++
          appendString fuel (rest.drop ((DecodeRune (b :: rest)).2 - 1)) := by
  rw [appendString]

theorem encodeRune_length_high (r : Nat) (h : 128 ≤ r) : 2 ≤ (encodeRune r).length := by
  unfold encodeRune
  split_ifs <;> simp
  omega

/-- What `appendString` writes for the encoding of a scalar value: the escape
of an ASCII byte, the `\u` escape of U+2028 and U+2029, and otherwise the
encoding itself. -/
theorem appendString_rune (r : Nat) (hs : isScalar r = true) (fuel : Nat) (rest : Str) :
    appendString (fuel + 1) (encodeRune r ++ rest) =
      (if r < 128 then escapeASCII r
        else if r = 0x2028 ∨ r = 0x2029 then unicodeEscape r
        else encodeRune r) ++ appendString fuel rest := by
  by_cases h : r < 128
  · rw [encodeRune_ascii r h, if_pos h]
    simp only [List.cons_append, List.nil_append]
    rw [appendString_cons, if_pos h]
  · rw [if_neg h]
    have h128 : 128 ≤ r := by omega
    have hdec := DecodeRune_encodeRune r hs h128 rest
    have hlen := encodeRune_length_high r h128
    have hhigh := encodeRune_high r h128
    cases henc : encodeRune r with
    | nil => simp [henc] at hlen
    | cons b tail =>
      rw [henc] at hdec hlen hhigh
      have hb : ¬ b < 0x80 := by
        have := hhigh b (List.mem_cons_self _ _)
        omega
      simp only [List.cons_append] at hdec ⊢
      rw [appendString_cons, if_neg hb, hdec]
      have hnot : ¬ (r = 0xFFFD ∧ (b :: tail).length = 1) := by
        intro hcon
        omega
      have hdrop : List.drop ((b :: tail).length - 1) (tail ++ rest) = rest := by
        simp
      have htake : List.take (b :: tail).length (b :: (tail ++ rest)) = b :: tail := by
        simp
      simp only [if_neg hnot, hdrop, htake]
      split_ifs <;> rfl

/-- What `appendString` writes for the encoding of a scalar value reads back as
the encoding. -/
theorem decode_rune (r : Nat) (rest : Str) :
    decodeStringBody ((if r < 128 then escapeASCII r
        else if r = 0x2028 ∨ r = 0x2029 then unicodeEscape r
        else encodeRune r) ++ rest) =
      (decodeStringBody rest).map fun p => (encodeRune r ++ p.1, p.2) := by
  split_ifs with h1 h2
  · rw [decode_escapeASCII r h1, encodeRune_ascii r h1]
    rfl
  · exact decode_unicodeEscape r (by omega) rest
  · exact decode_high _ (encodeRune_high r (by omega)) rest

/-- The encoding of scalar values is written so that it reads back, with
enough fuel for one round a value. -/
theorem decode_appendString (runes : List Nat) (hs : ∀ r ∈ runes, isScalar r = true)
    (fuel : Nat) (hf : runes.length ≤ fuel) (tail : Str) :
    decodeStringBody (appendString fuel (runes.flatMap encodeRune) ++ 34 :: tail) =
      some (runes.flatMap encodeRune, tail) := by
  induction runes generalizing fuel with
  | nil => simp [appendString_nil, decodeStringBody_cons]
  | cons r rs ih =>
    cases fuel with
    | zero => simp at hf
    | succ fuel =>
      rw [List.flatMap_cons, appendString_rune r (hs r (List.mem_cons_self _ _)),
        List.append_assoc, decode_rune r,
        ih (fun x hx => hs x (List.mem_cons_of_mem _ hx)) fuel (by simpa using hf)]
      rfl

theorem flatMap_encodeRune_length (runes : List Nat) :
    runes.length ≤ (runes.flatMap encodeRune).length := by
  induction runes with
  | nil => simp
  | cons r rs ih =>
    have := (encodeRune_length r).1
    simp only [List.flatMap_cons, List.length_append, List.length_cons]
    omega

/-- The body of a written string reads back as the string, when the string is
valid UTF-8. -/
theorem decode_body (s rest : Str) (hv : ValidUTF8 s) :
    decodeStringBody (appendString s.length s ++ 34 :: rest) = some (s, rest) := by
  obtain ⟨runes, hs, rfl⟩ := hv
  exact decode_appendString runes hs _ (flatMap_encodeRune_length runes) rest

theorem quoteString_append (s rest : Str) :
    quoteString s ++ rest = 34 :: (appendString s.length s ++ 34 :: rest) := by
  simp [quoteString]

/-- The written elements of a non-empty array read back as the elements, when
these are valid UTF-8. -/
theorem decodeElems_joinComma (l : List Str) (hne : l ≠ []) (hv : ∀ e ∈ l, ValidUTF8 e)
    (fuel : Nat) (hfuel : l.length ≤ fuel) :
    decodeElems fuel (joinComma (l.map quoteString) ++ [93]) = some l := by
  induction l generalizing fuel with
  | nil => exact absurd rfl hne
  | cons s rest ih =>
    have hs := hv s (List.mem_cons_self _ _)
    cases fuel with
    | zero => simp at hfuel
    | succ fuel =>
      cases rest with
      | nil =>
        simp only [List.map_cons, List.map_nil, joinComma]
        rw [quoteString_append]
        simp [decodeElems_quote, decode_body _ _ hs]
      | cons t ts =>
        have hlen : (t :: ts).length ≤ fuel := by simpa using hfuel
        have hrec := ih (by simp) (fun x hx => hv x (List.mem_cons_of_mem _ hx)) fuel hlen
        simp only [List.map_cons, joinComma] at hrec ⊢
        rw [List.append_assoc, quoteString_append]
        simp only [decodeElems_quote, decode_body _ _ hs, List.cons_append]
        rw [hrec]
        rfl

theorem quoteString_length (s : Str) : 2 ≤ (quoteString s).length := by
  simp [quoteString]

theorem joinComma_length (l : List Str) (h : ∀ e ∈ l, 2 ≤ e.length) :
    l.length ≤ (joinComma l).length := by
  induction l with
  | nil => simp [joinComma]
  | cons e rest ih =>
    cases rest with
    | nil =>
      have := h e (List.mem_cons_self _ _)
      simp [joinComma]
      omega
    | cons f fs =>
      have h1 := h e (List.mem_cons_self _ _)
      have h2 := ih (fun x hx => h x (List.mem_cons_of_mem _ hx))
      simp [joinComma] at h2 ⊢
      omega

theorem joinComma_quote_head (s : Str) (l : List Str) (t : Str) :
    ∃ tail, joinComma (quoteString s :: l) ++ t = 34 :: tail := by
  cases l with
  | nil => exact ⟨appendString s.length s ++ 34 :: t, by simp [joinComma, quoteString]⟩
  | cons u us =>
    exact ⟨appendString s.length s ++ 34 :: 44 :: (joinComma (u :: us) ++ t),
      by simp [joinComma, quoteString]⟩

/-- What `Marshal` writes for a slice of strings reads back as the elements of
the slice, when these are valid UTF-8. -/
theorem decodeStrings_Marshal (v : Slice Str) (hv : ∀ e ∈ v.toList, ValidUTF8 e) :
    decodeStrings (Marshal v).1 = some v.toList := by
  cases v with
  | none => decide
  | some l =>
    cases l with
    | nil => decide
    | cons s rest =>
      have hlen : (s :: rest).length ≤
          (joinComma ((s :: rest).map quoteString) ++ [93]).length := by
        have := joinComma_length ((s :: rest).map quoteString) (by
          intro e he
          obtain ⟨x, _, rfl⟩ := List.mem_map.mp he
          exact quoteString_length x)
        simp at this ⊢
        omega
      have hdec := decodeElems_joinComma (s :: rest) (by simp) hv _ hlen
      have hhead : ∃ tail, joinComma ((s :: rest).map quoteString) ++ [93] = 34 :: tail :=
        joinComma_quote_head s (rest.map quoteString) [93]
      obtain ⟨tail, htail⟩ := hhead
      simp only [Marshal, decodeStrings, Slice.toList]
      rw [htail] at hdec ⊢
      have hnull : bytes "null" = [110, 117, 108, 108] := by decide
      have hempty : bytes "[]" = [91, 93] := by decide
      have h1 : (91 :: 34 :: tail) ≠ bytes "null" := by
        rw [hnull]
        simp
      have h2 : (91 :: 34 :: tail) ≠ bytes "[]" := by
        rw [hempty]
        simp
      simp only [if_neg h1, if_neg h2]
      exact hdec

/-! ## Valid UTF-8 -/

/-- The empty string is valid UTF-8. -/
theorem validUTF8_nil : ValidUTF8 [] := ⟨[], by simp, rfl⟩

/-- Valid UTF-8 is closed under concatenation. -/
theorem validUTF8_append {a b : Str} (ha : ValidUTF8 a) (hb : ValidUTF8 b) :
    ValidUTF8 (a ++ b) := by
  obtain ⟨ra, hra, rfl⟩ := ha
  obtain ⟨rb, hrb, rfl⟩ := hb
  refine ⟨ra ++ rb, ?_, by simp⟩
  intro r hr
  rcases List.mem_append.mp hr with h | h
  · exact hra r h
  · exact hrb r h

/-- A single byte below 128 is valid UTF-8. -/
theorem validUTF8_ascii (b : Nat) (h : b < 128) : ValidUTF8 [b] :=
  ⟨[b], by
    intro r hr
    simp at hr
    subst hr
    rw [isScalar_iff]
    omega, by simp [encodeRune_ascii b h]⟩

/-- The bytes of a string literal are valid UTF-8. -/
theorem validUTF8_bytes (s : String) : ValidUTF8 (bytes s) := by
  refine ⟨s.data.map Char.toNat, ?_, by simp [bytes, List.flatMap_map]⟩
  intro r hr
  obtain ⟨c, _, rfl⟩ := List.mem_map.mp hr
  rw [isScalar_iff]
  exact c.valid

/-- A path whose elements are valid UTF-8 is valid UTF-8. -/
theorem validUTF8_joinSep (names : List Str) (h : ∀ n ∈ names, ValidUTF8 n) :
    ValidUTF8 (joinSep names) := by
  induction names with
  | nil => exact validUTF8_nil
  | cons n rest ih =>
    cases rest with
    | nil => exact h n (List.mem_cons_self _ _)
    | cons m ms =>
      rw [joinSep_cons_cons]
      have h1 := h n (List.mem_cons_self _ _)
      have h2 := ih (fun x hx => h x (List.mem_cons_of_mem _ hx))
      have h3 : ValidUTF8 (47 :: joinSep (m :: ms)) :=
        validUTF8_append (validUTF8_ascii 47 (by omega)) h2
      exact validUTF8_append h1 h3

/-- The entry of an item whose names are valid UTF-8 is valid UTF-8. -/
theorem validUTF8_entryOf (item : List Str × Bool) (h : ∀ n ∈ item.1, ValidUTF8 n) :
    ValidUTF8 (entryOf item) := by
  unfold entryOf
  cases item.2
  · simpa using validUTF8_joinSep item.1 h
  · exact validUTF8_append (validUTF8_joinSep item.1 h) (validUTF8_ascii 47 (by omega))

/-! ## `list_files`: different items have different entries -/

theorem goodItems_nil (heads : List Str) : GoodItems [] heads := by
  simp [GoodItems]

/-- The items of a list of entries with valid, pairwise different names have
pairwise different paths. -/
theorem goodItems_cons (name : Str) (child : Node) (rest : List (Str × Node))
    (hname : validName name = true) (hfresh : name ∉ rest.map Prod.fst)
    (hchild : ∃ heads, GoodItems child.itemsBelow heads)
    (hrest : GoodItems (itemsOf rest) (rest.map Prod.fst)) :
    GoodItems (itemsOf ((name, child) :: rest)) (((name, child) :: rest).map Prod.fst) := by
  obtain ⟨heads, hcn, hcm⟩ := hchild
  obtain ⟨hrn, hrm⟩ := hrest
  have hitems : itemsOf ((name, child) :: rest) =
      ([name], child.isDir) :: (child.itemsBelow.map fun it => (name :: it.1, it.2)) ++
        itemsOf rest := by
    rw [itemsOf]
  have hpaths : (itemsOf ((name, child) :: rest)).map Prod.fst =
      [name] :: ((child.itemsBelow.map Prod.fst).map fun p => name :: p) ++
        (itemsOf rest).map Prod.fst := by
    rw [hitems]
    simp [List.map_append, Function.comp_def]
  constructor
  · rw [hpaths, List.cons_append, List.nodup_cons]
    constructor
    · intro hmem
      rcases List.mem_append.mp hmem with h | h
      · obtain ⟨p, hp, heq⟩ := List.mem_map.mp h
        obtain ⟨it, hit, rfl⟩ := List.mem_map.mp hp
        obtain ⟨⟨n, tail, hnt, _⟩, _⟩ := hcm it hit
        rw [hnt] at heq
        simp at heq
      · obtain ⟨it, hit, heq⟩ := List.mem_map.mp h
        obtain ⟨⟨n, tail, hnt, hn⟩, _⟩ := hrm it hit
        rw [hnt] at heq
        have : n = name := by
          injection heq
        exact hfresh (this ▸ hn)
    · refine List.Nodup.append ?_ hrn ?_
      · exact List.Nodup.map (fun a b h => by injection h) hcn
      · intro p hp1 hp2
        obtain ⟨q, _, hq⟩ := List.mem_map.mp hp1
        obtain ⟨it, hit, heq⟩ := List.mem_map.mp hp2
        obtain ⟨⟨n, tail, hnt, hn⟩, _⟩ := hrm it hit
        rw [← hq, hnt] at heq
        have : n = name := by
          injection heq
        exact hfresh (this ▸ hn)
  · intro it hit
    rw [hitems, List.cons_append] at hit
    rcases List.mem_cons.mp hit with h | h
    · subst h
      exact ⟨⟨name, [], rfl, by simp⟩, by simpa using hname⟩
    · rcases List.mem_append.mp h with h | h
      · obtain ⟨it0, hit0, rfl⟩ := List.mem_map.mp h
        refine ⟨⟨name, it0.1, rfl, by simp⟩, ?_⟩
        intro x hx
        rcases List.mem_cons.mp hx with hx | hx
        · exact hx ▸ hname
        · exact (hcm it0 hit0).2 x hx
      · obtain ⟨⟨n, tail, hnt, hn⟩, hv⟩ := hrm it h
        exact ⟨⟨n, tail, hnt, by simp [hn]⟩, hv⟩

/-- Below a node whose entries have valid and pairwise different names, the
items have pairwise different paths made of valid names. -/
theorem goodItems_below (node : Node) :
    node.namesValid = true → node.namesDistinct = true →
      ∃ heads, GoodItems node.itemsBelow heads :=
  Node.rec
    (motive_1 := fun node => node.namesValid = true → node.namesDistinct = true →
      ∃ heads, GoodItems node.itemsBelow heads)
    (motive_2 := fun entries => entriesValid entries = true → entriesDistinct entries = true →
      GoodItems (itemsOf entries) (entries.map Prod.fst))
    (motive_3 := fun p => p.2.namesValid = true → p.2.namesDistinct = true →
      ∃ heads, GoodItems p.2.itemsBelow heads)
    (fun _ _ => ⟨[], by simp [Node.itemsBelow, goodItems_nil]⟩)
    (fun _ _ _ => ⟨[], by simp [Node.itemsBelow, goodItems_nil]⟩)
    (fun _ entries ih hv hd =>
      ⟨entries.map Prod.fst, by
        have := ih (by simpa [Node.namesValid] using hv) (by simpa [Node.namesDistinct] using hd)
        simpa [Node.itemsBelow] using this⟩)
    (fun _ _ _ => ⟨[], by simp [Node.itemsBelow, goodItems_nil]⟩)
    (fun _ _ => by simp [itemsOf, goodItems_nil])
    (fun head tail ihh iht hv hd => by
      obtain ⟨name, child⟩ := head
      have hv3 : validName name = true ∧ child.namesValid = true ∧ entriesValid tail = true := by
        simpa [entriesValid, Bool.and_eq_true, and_assoc] using hv
      have hd3 : name ∉ tail.map Prod.fst ∧ child.namesDistinct = true ∧
          entriesDistinct tail = true := by
        simpa [entriesDistinct, Bool.and_eq_true, and_assoc] using hd
      exact goodItems_cons name child tail hv3.1 hd3.1 (ihh hv3.2.1 hd3.2.1)
        (iht hv3.2.2 hd3.2.2))
    (fun _ _ ih => ih)
    node

/-- The entry of an item determines the item, among items whose paths are
made of valid names. -/
theorem entryOf_injective (a b : List Str × Bool) (ha : a.1 ≠ []) (hb : b.1 ≠ [])
    (hav : ∀ x ∈ a.1, validName x = true) (hbv : ∀ x ∈ b.1, validName x = true)
    (h : entryOf a = entryOf b) : a = b := by
  obtain ⟨p, d⟩ := a
  obtain ⟨q, e⟩ := b
  have hps : ∀ x ∈ p, 47 ∉ x := fun x hx => ((validName_iff x).mp (hav x hx)).2.1
  have hqs : ∀ x ∈ q, 47 ∉ x := fun x hx => ((validName_iff x).mp (hbv x hx)).2.1
  have hpe : ([] : Str) ∉ p := fun hx => ((validName_iff []).mp (hav [] hx)).1 rfl
  have hqe : ([] : Str) ∉ q := fun hx => ((validName_iff []).mp (hbv [] hx)).1 rfl
  have hsplit := congrArg splitSep h
  simp only [entryOf] at hsplit
  cases d <;> cases e
  · simp only [Bool.false_eq_true, if_false, List.append_nil] at hsplit
    rw [splitSep_joinSep p ha hps, splitSep_joinSep q hb hqs] at hsplit
    rw [hsplit]
  · exfalso
    simp only [Bool.false_eq_true, if_false, if_true, List.append_nil] at hsplit
    rw [splitSep_append_sep, splitSep_joinSep p ha hps, splitSep_joinSep q hb hqs] at hsplit
    apply hpe
    rw [hsplit]
    simp [splitSep]
  · exfalso
    simp only [Bool.false_eq_true, if_false, if_true, List.append_nil] at hsplit
    rw [splitSep_append_sep, splitSep_joinSep p ha hps, splitSep_joinSep q hb hqs] at hsplit
    apply hqe
    rw [← hsplit]
    simp [splitSep]
  · simp only [if_true] at hsplit
    rw [splitSep_append_sep, splitSep_append_sep, splitSep_joinSep p ha hps,
      splitSep_joinSep q hb hqs] at hsplit
    have := List.append_cancel_right hsplit
    rw [this]

/-- Below a node whose entries have valid and pairwise different names, the
entries of the listing are pairwise different. -/
theorem entries_nodup (node : Node) (hv : node.namesValid = true)
    (hd : node.namesDistinct = true) : (node.itemsBelow.map entryOf).Nodup := by
  obtain ⟨heads, hn, hm⟩ := goodItems_below node hv hd
  refine List.Nodup.map_on ?_ (List.Nodup.of_map Prod.fst hn)
  intro a ha b hb hab
  have hane : a.1 ≠ [] := by
    obtain ⟨⟨n, tail, hnt, _⟩, _⟩ := hm a ha
    simp [hnt]
  have hbne : b.1 ≠ [] := by
    obtain ⟨⟨n, tail, hnt, _⟩, _⟩ := hm b hb
    simp [hnt]
  exact entryOf_injective a b hane hbne (hm a ha).2 (hm b hb).2 hab

/-! ## `list_files`: the listing -/

/-- The output of a successful `Execute`: the input decoded without error, the
walk from the decoded directory ended without error, and the output is what
`Marshal` writes for the collected slice. -/
theorem Execute_ok (t : ListFilesTool) (fs : FileSystem) (input : RawMessage)
    (hok : (t.Execute fs input).2 = none) :
    (ListFilesInput.unmarshal input).2 = none ∧
    (Walk fs (ListFilesInput.unmarshal input).1.dir
      (ListFilesTool.walkFunc (ListFilesInput.unmarshal input).1.dir) none).2 = none ∧
    (t.Execute fs input).1 =
      (Marshal (Walk fs (ListFilesInput.unmarshal input).1.dir
        (ListFilesTool.walkFunc (ListFilesInput.unmarshal input).1.dir) none).1).1 := by
  unfold ListFilesTool.Execute at hok ⊢
  unfold ListFilesInput.dir
  rcases hu : ListFilesInput.unmarshal input with ⟨d, _ | e⟩
  · rw [hu] at hok
    simp only [] at hok ⊢
    rcases hw : Walk fs (if d.Path ≠ [] then d.Path else [46])
        (ListFilesTool.walkFunc (if d.Path ≠ [] then d.Path else [46])) none with ⟨files, _ | e⟩
    · cases files <;> simp [Marshal]
    · rw [hw] at hok
      simp at hok
  · rw [hu] at hok
    simp at hok

/-- What the walk of a successful `Execute` has collected: the entries of the
items below the root, appended in order to the `nil` slice. -/
theorem Execute_collects (t : ListFilesTool) (fs : FileSystem) (input : RawMessage)
    (root : Node)
    (hroot : fs.lstat (ListFilesInput.unmarshal input).1.dir = .ok root)
    (hvalid : root.namesValid = true)
    (hok : (t.Execute fs input).2 = none) :
    (t.Execute fs input).1 =
      (Marshal (Slice.appendAll none (root.itemsBelow.map entryOf))).1 := by
  obtain ⟨_, hwalk, hout⟩ := Execute_ok t fs input hok
  have hd : (ListFilesInput.unmarshal input).1.dir ≠ [] := by
    unfold ListFilesInput.dir
    split_ifs with h
    · exact h
    · simp
  rw [hout]
  unfold Walk at hwalk ⊢
  rw [hroot] at hwalk ⊢
  simp only [] at hwalk ⊢
  rw [walk_collects _ hd root _ [] none hd (by simp) (by simp) hvalid hwalk]
  simp [selfEntry]

/-- The names of the sample working directory are valid UTF-8. -/
theorem sampleRoot_utf8 : ∀ n ∈ sampleRoot.names, ValidUTF8 n := by
  intro n hn
  have hnames : sampleRoot.names = [bytes "a.txt", bytes "sub", bytes "b.go", bytes "e"] := rfl
  rw [hnames] at hn
  simp only [List.mem_cons, List.mem_singleton, List.not_mem_nil, or_false] at hn
  rcases hn with rfl | rfl | rfl | rfl <;> exact validUTF8_bytes _

/-- The names on the path of an item are names of entries of the tree. -/
theorem item_names_mem (node : Node) :
    ∀ it ∈ node.itemsBelow, ∀ x ∈ it.1, x ∈ node.names :=
  Node.rec
    (motive_1 := fun node => ∀ it ∈ node.itemsBelow, ∀ x ∈ it.1, x ∈ node.names)
    (motive_2 := fun entries => ∀ it ∈ itemsOf entries, ∀ x ∈ it.1, x ∈ entriesNames entries)
    (motive_3 := fun p => ∀ it ∈ p.2.itemsBelow, ∀ x ∈ it.1, x ∈ p.2.names)
    (fun it hit => by simp [Node.itemsBelow] at hit)
    (fun _ it hit => by simp [Node.itemsBelow] at hit)
    (fun _ entries ih it hit x hx => by
      rw [Node.names]
      rw [Node.itemsBelow] at hit
      exact ih it hit x hx)
    (fun _ it hit => by simp [Node.itemsBelow] at hit)
    (fun it hit => by simp [itemsOf] at hit)
    (fun head tail ihh iht it hit x hx => by
      obtain ⟨name, child⟩ := head
      rw [itemsOf, List.cons_append] at hit
      rw [entriesNames]
      rcases List.mem_cons.mp hit with h | h
      · subst h
        simp at hx
        subst hx
        exact List.mem_cons_self _ _
      · rcases List.mem_append.mp h with h | h
        · obtain ⟨it0, hit0, rfl⟩ := List.mem_map.mp h
          rcases List.mem_cons.mp hx with hx | hx
          · subst hx
            exact List.mem_cons_self _ _
          · exact List.mem_cons_of_mem _ (List.mem_append_left _ (ihh it0 hit0 x hx))
        · exact List.mem_cons_of_mem _ (List.mem_append_right _ (iht it h x hx)))
    (fun _ _ ih => ih)
    node

/-- C9, as amended: when `Execute` succeeds on a tree whose entries have valid
names that are valid UTF-8, the list decoded from its output holds, in the
order of the walk, exactly one entry for every file, symbolic link and
directory strictly below the root of the walk and nothing else: the entry of
an item is its path relative to the root, followed by a separator exactly when
`Lstat` reports the item as a directory.  A symbolic link is an item of its
own with nothing below it, also as the root.  When no directory holds two
entries of the same name, different items have different entries. -/
theorem C9_listing_is_items_below (t : ListFilesTool) (fs : FileSystem) (input : RawMessage)
    (root : Node)
    (hroot : fs.lstat (ListFilesInput.unmarshal input).1.dir = .ok root)
    (hvalid : root.namesValid = true)
    (hutf8 : ∀ n ∈ root.names, ValidUTF8 n)
    (hok : (t.Execute fs input).2 = none) :
    decodeStrings (t.Execute fs input).1 = some (root.itemsBelow.map entryOf) ∧
    (root.namesDistinct = true → (root.itemsBelow.map entryOf).Nodup) := by
  constructor
  · have hentries : ∀ e ∈ (Slice.appendAll none (root.itemsBelow.map entryOf)).toList,
        ValidUTF8 e := by
      intro e he
      rw [Slice.toList_appendAll] at he
      have he2 : e ∈ root.itemsBelow.map entryOf := by simpa [Slice.toList] using he
      obtain ⟨it, hit, rfl⟩ := List.mem_map.mp he2
      exact validUTF8_entryOf it (fun n hn => hutf8 n (item_names_mem root it hit n hn))
    rw [Execute_collects t fs input root hroot hvalid hok, decodeStrings_Marshal _ hentries,
      Slice.toList_appendAll]
    rfl
  · exact entries_nodup root hvalid

/-- C9, witness: the listing of the sample working directory. -/
theorem C9_listing_of_sample_directory :
    decodeStrings (NewListFilesTool.Execute sampleFS (.valid (.obj []))).1 =
      some [bytes "a.txt", bytes "sub/", bytes "sub/b.go", bytes "sub/e/"] ∧
    [bytes "a.txt", bytes "sub/", bytes "sub/b.go", bytes "sub/e/"].Nodup :=
  ⟨(C9_listing_is_items_below NewListFilesTool sampleFS (.valid (.obj [])) sampleRoot rfl
      (by decide) sampleRoot_utf8 (by decide)).1,
   (C9_listing_is_items_below NewListFilesTool sampleFS (.valid (.obj [])) sampleRoot rfl
      (by decide) sampleRoot_utf8 (by decide)).2 (by decide)⟩

/-- C9, counterexample: a directory that holds the two files named by the
single bytes FE and FF, which are valid names and no valid UTF-8.  `Execute`
succeeds and writes the escape of the replacement character for both; the
decoded list holds the encoding of U+FFFD twice, which is not the list of the
relative paths of the two files, and holds the same entry for both. -/
theorem C9_invalid_utf8_names_are_rewritten :
    rawRoot.namesValid = true ∧ rawRoot.namesDistinct = true ∧
    rawRoot.itemsBelow.map entryOf = [[0xFE], [0xFF]] ∧
    NewListFilesTool.Execute rawFS (.valid (.obj [])) =
      (bytes "[\"\\ufffd\",\"\\ufffd\"]", none) ∧
    decodeStrings (NewListFilesTool.Execute rawFS (.valid (.obj []))).1 =
      some [[0xEF, 0xBF, 0xBD], [0xEF, 0xBF, 0xBD]] ∧
    decodeStrings (NewListFilesTool.Execute rawFS (.valid (.obj []))).1 ≠
      some (rawRoot.itemsBelow.map entryOf) ∧
    ¬ [[0xEF, 0xBF, 0xBD], [0xEF, 0xBF, 0xBD]].Nodup := by
  decide

/-! ## `list_files`: further facts -/

theorem Slice.appendAll_none {α : Type} (l : List α) (hne : l ≠ []) :
    Slice.appendAll (none : Slice α) l = some l := by
  have key : ∀ (m l : List α), Slice.appendAll (some m : Slice α) l = some (m ++ l) := by
    intro m l
    induction l generalizing m with
    | nil => simp [Slice.appendAll_nil]
    | cons x rest ih => rw [Slice.appendAll_cons]; simp [Slice.append, ih]
  cases l with
  | nil => exact absurd rfl hne
  | cons x rest => rw [Slice.appendAll_cons]; simp [Slice.append, key]

/-- The text of a successful listing: `null` when nothing lies below the root,
and otherwise the array of the quoted entries, in the order of the walk. -/
theorem list_files_output_text (t : ListFilesTool) (fs : FileSystem) (input : RawMessage)
    (root : Node)
    (hroot : fs.lstat (ListFilesInput.unmarshal input).1.dir = .ok root)
    (hvalid : root.namesValid = true)
    (hok : (t.Execute fs input).2 = none) :
    (root.itemsBelow = [] → (t.Execute fs input).1 = (bytes "null")) ∧
    (root.itemsBelow ≠ [] → (t.Execute fs input).1 =
      91 :: (joinComma ((root.itemsBelow.map entryOf).map quoteString) ++ [93])) := by
  rw [Execute_collects t fs input root hroot hvalid hok]
  constructor
  · intro h
    rw [h]
    rfl
  · intro h
    rw [Slice.appendAll_none _ (by simpa using h)]
    rfl

/-- The text of the listing of the sample working directory. -/
theorem list_files_output_text_sample :
    (NewListFilesTool.Execute sampleFS (.valid (.obj []))).1 =
      (bytes "[\"a.txt\",\"sub/\",\"sub/b.go\",\"sub/e/\"]") :=
  (list_files_output_text NewListFilesTool sampleFS (.valid (.obj [])) sampleRoot rfl
    (by decide) (by decide)).2 (by decide)

/-- Symbolic links in a listing: a link to a directory is listed as an entry
without a separator and nothing is listed below it, and a walk whose root is
such a link lists nothing. -/
theorem list_files_symlink_vectors :
    NewListFilesTool.Execute linkedFS (.valid (.obj [])) =
      (bytes "[\"link\",\"sub/\",\"sub/b.go\"]", none) ∧
    NewListFilesTool.Execute linkedFS (pathInput (bytes "link")) = (bytes "null", none) := by
  decide

/-- The method `ListFilesTool.Execute` returns an error exactly when the input
does not decode into `ListFilesInput` or the walk from the decoded directory
ends with an error. -/
theorem list_files_error_iff (t : ListFilesTool) (fs : FileSystem) (input : RawMessage) :
    (t.Execute fs input).2 ≠ none ↔
      ((ListFilesInput.unmarshal input).2 ≠ none ∨
        (Walk fs (ListFilesInput.unmarshal input).1.dir
          (ListFilesTool.walkFunc (ListFilesInput.unmarshal input).1.dir) none).2 ≠ none) := by
  unfold ListFilesTool.Execute ListFilesInput.dir
  rcases hu : ListFilesInput.unmarshal input with ⟨d, _ | e⟩
  · simp only []
    rcases hw : Walk fs (if d.Path ≠ [] then d.Path else [46])
        (ListFilesTool.walkFunc (if d.Path ≠ [] then d.Path else [46])) none with ⟨files, _ | e⟩
    · cases files <;> simp [Marshal]
    · simp
  · simp

/-! ## The agent loop: tool uses and tool results are paired -/

theorem toolResultIds_toContent (blocks : List ResponseBlock) :
    toolResultIds (blocks.map ResponseBlock.toContent) = [] := by
  induction blocks with
  | nil => rfl
  | cons b rest ih => cases b <;> simpa [ResponseBlock.toContent, toolResultIds] using ih

theorem toolUseIds_toContent_of_no_use (blocks : List ResponseBlock)
    (h : hasToolUse blocks = false) : toolUseIds (blocks.map ResponseBlock.toContent) = [] := by
  induction blocks with
  | nil => rfl
  | cons b rest ih =>
    cases b with
    | text s => simpa [ResponseBlock.toContent, toolUseIds] using ih (by simpa [hasToolUse] using h)
    | toolUse id name input => simp [hasToolUse] at h

theorem executeToolUse_id (tools : List ToolDefinition) (id name : Str) (input : RawMessage) :
    ∃ content isError, executeToolUse tools id name input = .toolResult id content isError := by
  unfold executeToolUse
  cases findByName tools name with
  | none => simp
  | some t => rcases h : t.Execute input with ⟨output, _ | err⟩ <;> simp [h]

/-- The tool results answer the tool uses one for one, in order. -/
theorem toolResultIds_toolResults (tools : List ToolDefinition) (content : List ContentBlock) :
    toolResultIds (toolResults tools content) = toolUseIds content := by
  induction content with
  | nil => rfl
  | cons b rest ih =>
    cases b with
    | text s => simpa [toolResults, toolUseIds] using ih
    | toolResult id c e => simpa [toolResults, toolUseIds] using ih
    | toolUse id name input =>
      obtain ⟨c, e, hres⟩ := executeToolUse_id tools id name input
      simp [toolResults, toolUseIds, hres, toolResultIds, ih]

/-- An element of a list without duplicates occurs in it once. -/
theorem countP_eq_one_of_mem (l : List Str) (id : Str) (hn : l.Nodup) (hm : id ∈ l) :
    l.countP (fun x => decide (x = id)) = 1 := by
  induction l with
  | nil => simp at hm
  | cons x rest ih =>
    obtain ⟨hx, hrest⟩ := List.nodup_cons.mp hn
    by_cases hxid : x = id
    · subst hxid
      have : rest.countP (fun y => decide (y = x)) = 0 := by
        rw [List.countP_eq_zero]
        intro y hy
        simp only [decide_eq_true_eq]
        intro hyx
        exact hx (hyx ▸ hy)
      simp [List.countP_cons, this]
    · have hm2 : id ∈ rest := by
        rcases List.mem_cons.mp hm with h | h
        · exact absurd h.symm hxid
        · exact h
      simp [List.countP_cons, hxid, ih hrest hm2]

/-- Appending a message without tool results to a paired conversation keeps
the pairing up to the last message. -/
theorem PairedOpen_snoc (conv : Conversation) (m : Message) (h : Paired conv)
    (hm : toolResultIds m.content = []) : PairedOpen (conv ++ [m]) := by
  obtain ⟨⟨hchain, hhead⟩, hlast⟩ := h
  constructor
  · refine List.Chain'.append hchain (List.chain'_singleton m) ?_
    intro x hx y hy
    simp at hy
    subst hy
    constructor
    · intro hrole id hid
      rw [hlast x hx hrole] at hid
      simp at hid
    · intro id hid
      rw [hm] at hid
      simp at hid
  · intro x hx
    cases conv with
    | nil =>
      simp at hx
      subst hx
      exact hm
    | cons c cs => exact hhead x (by simpa using hx)

/-- Appending the tool results of the last message closes the pairing. -/
theorem Paired_answer (tools : List ToolDefinition) (conv : Conversation) (m : Message)
    (hopen : PairedOpen conv) (hlast : conv.getLast? = some m) (hrole : m.role = .assistant)
    (hnodup : (toolUseIds m.content).Nodup) :
    Paired (conv ++ [{ role := .user, content := toolResults tools m.content }]) := by
  obtain ⟨hchain, hhead⟩ := hopen
  refine ⟨⟨?_, ?_⟩, ?_⟩
  · refine List.Chain'.append hchain (List.chain'_singleton _) ?_
    intro x hx y hy
    simp at hy
    subst hy
    have hxm : x = m := by
      rw [hlast] at hx
      simpa using hx.symm
    subst hxm
    constructor
    · intro _ id hid
      refine ⟨rfl, ?_⟩
      simp only [toolResultIds_toolResults]
      exact countP_eq_one_of_mem _ id hnodup hid
    · intro id hid
      simp only [toolResultIds_toolResults] at hid
      exact ⟨hrole, hid⟩
  · intro x hx
    cases conv with
    | nil => simp at hlast
    | cons c cs => exact hhead x (by simpa using hx)
  · intro x hx hr
    simp at hx
    subst hx
    simp at hr

/-- The loop invariant holds when a run starts. -/
theorem LoopInvariant_start {ι : Type} (input : ι) : LoopInvariant (LoopState.start input) := by
  simp [LoopInvariant, LoopState.start, Paired, PairedOpen]

/-- Every transition keeps the loop invariant, for a model whose tool-use ids
are pairwise different within a response. -/
theorem LoopInvariant_step {ι : Type} (a : Agent ι)
    (hids : ∀ n conv blocks, a.client n conv = .ok blocks →
      (toolUseIds (blocks.map ResponseBlock.toContent)).Nodup)
    (s : LoopState ι) (h : LoopInvariant s) : LoopInvariant (a.step s) := by
  unfold Agent.step
  cases hph : s.phase with
  | AwaitingUserInput =>
    have hp : Paired s.conversation := by simpa [LoopInvariant, hph] using h
    simp only []
    rcases hget : a.getUserMessage s.input with ⟨⟨line, ok⟩, input⟩
    cases ok with
    | false => simpa [LoopInvariant] using hp
    | true =>
      have hopen := PairedOpen_snoc s.conversation { role := .user, content := [.text line] } hp rfl
      simp only [LoopInvariant]
      exact ⟨hopen, by simp⟩
  | CallingModel =>
    have hp : Paired s.conversation := by simpa [LoopInvariant, hph] using h
    simp only []
    cases hcall : a.client s.calls s.conversation with
    | error err => simpa [LoopInvariant] using hp
    | ok blocks =>
      have hopen := PairedOpen_snoc s.conversation
        { role := .assistant, content := blocks.map ResponseBlock.toContent } hp
        (toolResultIds_toContent blocks)
      cases huse : hasToolUse blocks with
      | true =>
        simp only [LoopInvariant, huse, if_true]
        exact ⟨hopen, { role := .assistant, content := blocks.map ResponseBlock.toContent },
          by simp, rfl, toolResultIds_toContent blocks,
          hids s.calls s.conversation blocks hcall⟩
      | false =>
        simp only [LoopInvariant, huse]
        refine ⟨hopen, ?_⟩
        intro m hm _
        simp at hm
        subst hm
        exact toolUseIds_toContent_of_no_use blocks huse
  | ExecutingTools =>
    have hp : PairedOpen s.conversation ∧
        ∃ m, s.conversation.getLast? = some m ∧ m.role = .assistant ∧
          toolResultIds m.content = [] ∧ (toolUseIds m.content).Nodup := by
      simpa [LoopInvariant, hph] using h
    obtain ⟨hopen, m, hlast, hrole, _, hnodup⟩ := hp
    simp only [hlast, LoopInvariant]
    exact Paired_answer a.tools s.conversation m hopen hlast hrole hnodup
  | Done err =>
    simpa [LoopInvariant, hph] using h

/-- The loop invariant holds after any number of transitions of a run. -/
theorem LoopInvariant_Run {ι : Type} (a : Agent ι) (input : ι)
    (hids : ∀ n conv blocks, a.client n conv = .ok blocks →
      (toolUseIds (blocks.map ResponseBlock.toContent)).Nodup)
    (fuel : Nat) : LoopInvariant (a.Run input fuel) := by
  induction fuel with
  | zero => exact LoopInvariant_start input
  | succ n ih => exact LoopInvariant_step a hids _ ih

/-- C8: for a model whose tool-use ids are pairwise different within a
response, at every point of a run outside the state `ExecutingTools` (when
input is awaited, when the model is called, when the run is over) every tool
use of an assistant message has exactly one tool result with its id in the
immediately following user message, and every tool result answers a tool use
of the assistant message immediately before it.  In the state
`ExecutingTools` the same holds up to the last message, whose tool uses are
being answered. -/
theorem C8_tool_uses_and_results_paired {ι : Type} (a : Agent ι) (input : ι)
    (hids : ∀ n conv blocks, a.client n conv = .ok blocks →
      (toolUseIds (blocks.map ResponseBlock.toContent)).Nodup)
    (fuel : Nat) :
    ((a.Run input fuel).phase ≠ .ExecutingTools → Paired (a.Run input fuel).conversation) ∧
    ((a.Run input fuel).phase = .ExecutingTools →
      PairedOpen (a.Run input fuel).conversation) := by
  have h := LoopInvariant_Run a input hids fuel
  unfold LoopInvariant at h
  cases hph : (a.Run input fuel).phase <;> rw [hph] at h <;> simp_all

theorem scriptedClient_ids (n : Nat) (conv : Conversation) (blocks : List ResponseBlock)
    (h : scriptedClient n conv = .ok blocks) :
    (toolUseIds (blocks.map ResponseBlock.toContent)).Nodup := by
  unfold scriptedClient at h
  match n, h with
  | 0, h =>
    have hb : blocks = [.text (bytes "Let me look."),
        .toolUse (bytes "tu_1") (bytes "list_files") (.valid (.obj []))] := by
      injection h with h
      exact h.symm
    subst hb
    simp [ResponseBlock.toContent, toolUseIds]
  | 1, h =>
    have hb : blocks = [.text (bytes "There are two entries.")] := by
      injection h with h
      exact h.symm
    subst hb
    simp [ResponseBlock.toContent, toolUseIds]
  | n + 2, h => simp at h

/-- C8, witness: the run `main` starts on one line of input, with a model that
asks for a listing and then answers: the run ends without error after the
user message, the assistant message with the tool use `tu_1`, the user message
with the tool result for `tu_1` and the final assistant message, and its
conversation is paired. -/
theorem C8_scripted_run_is_paired :
    ((Agent.New scriptedClient getUserMessage (agentTools sampleFS)).Run oneLineScanner 6).phase
      = .Done none ∧
    (((Agent.New scriptedClient getUserMessage (agentTools sampleFS)).Run oneLineScanner
        6).conversation.map fun m => (m.role, toolUseIds m.content, toolResultIds m.content))
      = [(.user, [], []), (.assistant, [(bytes "tu_1")], []), (.user, [], [(bytes "tu_1")]),
         (.assistant, [], [])] ∧
    Paired ((Agent.New scriptedClient getUserMessage (agentTools sampleFS)).Run oneLineScanner
      6).conversation :=
  ⟨by decide, by decide,
   (C8_tool_uses_and_results_paired (Agent.New scriptedClient getUserMessage (agentTools sampleFS))
      oneLineScanner scriptedClient_ids 6).1 (by decide)⟩

/-! ## The model of `path/filepath` on the test vectors of the Go library -/

/-- The function `Clean` on vectors of the tests of `path/filepath`. -/
theorem Clean_vectors :
    Clean (bytes "abc//def//ghi") = (bytes "abc/def/ghi") ∧
    Clean (bytes "abc/def/../ghi/../jkl") = (bytes "abc/jkl") ∧
    Clean (bytes "abc/./../def") = (bytes "def") ∧
    Clean (bytes "abc/def/../../..") = (bytes "..") ∧
    Clean (bytes "../../abc") = (bytes "../../abc") ∧
    Clean (bytes "/../abc") = (bytes "/abc") ∧
    Clean (bytes "/..") = (bytes "/") ∧
    Clean (bytes "abc/") = (bytes "abc") ∧
    Clean (bytes "") = (bytes ".") := by
  decide

/-- The function `Rel` on vectors of the tests of `path/filepath`. -/
theorem Rel_vectors :
    Rel (bytes "a/b") (bytes "a/b/c/d") = .ok (bytes "c/d") ∧
    Rel (bytes "a/b") (bytes "a/b/.") = .ok (bytes ".") ∧
    Rel (bytes "ab/cd") (bytes "ab/cde") = .ok (bytes "../cde") ∧
    Rel (bytes "a/b/c/d") (bytes "a/b") = .ok (bytes "../..") ∧
    Rel (bytes "/a/b") (bytes "/a/b/c") = .ok (bytes "c") ∧
    Rel (bytes ".") (bytes "a/b") = .ok (bytes "a/b") ∧
    Rel (bytes "..") (bytes "a") = .error (relError (bytes "..") (bytes "a")) ∧
    Rel (bytes "a") (bytes "/a") = .error (relError (bytes "a") (bytes "/a")) ∧
    Rel (bytes "../..") (bytes "..") = .error (relError (bytes "../..") (bytes "..")) ∧
    Rel (bytes "a") (bytes ".") = .ok (bytes "..") ∧
    Rel (bytes "a/b/../c") (bytes "a/b") = .ok (bytes "../b") ∧
    Rel (bytes "../../a") (bytes "../../a/b") = .ok (bytes "b") ∧
    Rel (bytes "/") (bytes "/a/b") = .ok (bytes "a/b") :=
  ⟨rfl, rfl, rfl, rfl, rfl, rfl, rfl, rfl, rfl, rfl, rfl, rfl, rfl⟩

end AnthropicAgent
